import Mathlib

/-!
Verification of the ralph_ollama tool-call parsing, deduplication, progress
detection and driver-loop core against its specification.

The Python source is shallowly embedded:
* JSON values (the loosely-typed tool-call arguments) are the inductive
  `JVal`; Python dict equality is modelled as structural equality of `JVal`
  (objects are insertion-ordered association lists, as in Python 3.7+ dicts;
  duplicate keys are resolved as Python's JSON decoder does, keeping the
  last value at the first position).
* JSON numbers are modelled as integers; fractional/exponent literals are
  outside the model (no claim depends on them).
* `json.loads` / `json.dumps` are modelled by `loads` / `dumps` below,
  faithful to Python's strict decoder and `ensure_ascii` encoder on the
  integer-number subset.
-/

namespace RalphOllama

mutual

/-- JSON-like value: the recursive argument type of tool calls. -/
inductive JVal where
  | nullv : JVal
  | boolv : Bool → JVal
  | num : Int → JVal
  | str : String → JVal
  | arr : JArr → JVal
  | obj : JObj → JVal
deriving DecidableEq, Repr

/-- Element list of a JSON array. -/
inductive JArr where
  | nil : JArr
  | cons : JVal → JArr → JArr
deriving DecidableEq, Repr

/-- Insertion-ordered member list of a JSON object (a Python dict). -/
inductive JObj where
  | nil : JObj
  | cons : String → JVal → JObj → JObj
deriving DecidableEq, Repr

end

/-- Lookup of a key in a JSON object (Python `key in obj` / `obj[key]`). -/
def jlookup (key : String) : JObj → Option JVal
  | .nil => none
  | .cons k v rest => if k = key then some v else jlookup key rest

/-- Insertion as Python's dict does during JSON decoding: an existing key is
replaced in place (keeping its original position), a new key is appended. -/
def jinsert (key : String) (val : JVal) : JObj → JObj
  | .nil => .cons key val .nil
  | .cons k v rest =>
    if k = key then .cons k val rest else .cons k v (jinsert key val rest)

/-- Opening brace character, kept out of literals. -/
def lbrace : Char := Char.ofNat 123

/-- Closing brace character, kept out of literals. -/
def rbrace : Char := Char.ofNat 125

/-- Single-quote character. -/
def squote : Char := Char.ofNat 39

/-- Double-quote character. -/
def dquote : Char := Char.ofNat 34

/-- Backslash character. -/
def bslash : Char := Char.ofNat 92

/-- ASCII whitespace set of Python's `str.strip` / `\s` (space, tab, LF, CR, FF, VT). -/
def isPyWs (c : Char) : Bool :=
  c = ' ' || c = '\t' || c = '\n' || c = '\r' || c = Char.ofNat 12 || c = Char.ofNat 11

/-- Word character of the regex class `\w` (ASCII subset). -/
def isWordChar (c : Char) : Bool :=
  ('a' ≤ c && c ≤ 'z') || ('A' ≤ c && c ≤ 'Z') || ('0' ≤ c && c ≤ '9') || c = '_'

/-- ASCII decimal digit test. -/
def isDig (c : Char) : Bool := '0' ≤ c && c ≤ '9'

/-- Lower-casing as Python's `str.lower` on the ASCII range. -/
def lowerStr (s : String) : String := ⟨s.data.map Char.toLower⟩

/-- Does `need` occur as a prefix of `hay` (character lists)? -/
def listHasPre : List Char → List Char → Bool
  | [], _ => true
  | _ :: _, [] => false
  | c :: cs, d :: ds => c = d && listHasPre cs ds

/-- Does `need` occur as a contiguous sublist of `hay` (Python `in` on strings)? -/
def listHasSub (need : List Char) : List Char → Bool
  | [] => listHasPre need []
  | d :: ds => listHasPre need (d :: ds) || listHasSub need ds

/-- Python `needle in hay` on strings. -/
def strIn (need hay : String) : Bool := listHasSub need.data hay.data

/-- Python `s[-k:]`: the last `k` elements (whole list when shorter). -/
def pyTail (k : Nat) (xs : List α) : List α := xs.drop (xs.length - k)

/-- Python `s.strip()` on the ASCII whitespace set. -/
def pyStrip (s : String) : String :=
  ⟨((s.data.dropWhile isPyWs).reverse.dropWhile isPyWs).reverse⟩

/-- One step of Python `str.replace(old, "")`: drop the leftmost occurrence
of `old`, scanning left to right; `fuel` bounds recursion by the text length. -/
def replaceAllAux (old : List Char) : Nat → List Char → List Char
  | 0, s => s
  | _ + 1, [] => []
  | fuel + 1, d :: ds =>
    if listHasPre old (d :: ds) && old ≠ [] then
      replaceAllAux old fuel ((d :: ds).drop old.length)
    else
      d :: replaceAllAux old fuel ds

/-- Python `s.replace(old, "")` (all non-overlapping occurrences removed). -/
def replaceAll (s old : String) : String :=
  ⟨replaceAllAux old.data s.data.length s.data⟩

/-- Key containment in a JSON object (Python `key in obj`). -/
def jhasKey (key : String) (o : JObj) : Bool := (jlookup key o).isSome

/-- Build a dict from decoded key/value pairs in order (Python `dict(pairs)`). -/
def objOfPairs (ps : List (String × JVal)) : JObj :=
  ps.foldl (fun o kv => jinsert kv.1 kv.2 o) .nil

/-- JSON whitespace characters of Python's decoder (space, tab, LF, CR). -/
def isJsonWs (c : Char) : Bool :=
  c = ' ' || c = '\t' || c = '\n' || c = '\r'

/-- Drop leading JSON whitespace. -/
def skipWs (s : List Char) : List Char := s.dropWhile isJsonWs

/-- Decimal digit character. -/
def digitCh (d : Nat) : Char := Char.ofNat (48 + d)

/-- Decimal digits of a natural number, most significant first. -/
def natDigits (n : Nat) : List Char :=
  if _ : n < 10 then [digitCh n]
  else natDigits (n / 10) ++ [digitCh (n % 10)]
decreasing_by exact Nat.div_lt_self (by omega) (by omega)

/-- Python `str` of an int: optional minus sign and decimal digits. -/
def intRepr (n : Int) : List Char :=
  if n < 0 then '-' :: natDigits n.natAbs else natDigits n.toNat

/-- Lowercase hex digit for a value below 16. -/
def hexDigitCh (n : Nat) : Char :=
  if n < 10 then Char.ofNat (48 + n) else Char.ofNat (87 + n)

/-- Four lowercase hex digits of a value below 0x10000. -/
def toHex4 (n : Nat) : List Char :=
  [hexDigitCh (n / 4096 % 16), hexDigitCh (n / 256 % 16),
   hexDigitCh (n / 16 % 16), hexDigitCh (n % 16)]

/-- Escape one character as Python `json.dumps` (ensure_ascii) does. -/
def escChar (c : Char) : List Char :=
  if c = dquote then [bslash, dquote]
  else if c = bslash then [bslash, bslash]
  else if c = '\n' then [bslash, 'n']
  else if c = '\r' then [bslash, 'r']
  else if c = '\t' then [bslash, 't']
  else if c.toNat = 8 then [bslash, 'b']
  else if c.toNat = 12 then [bslash, 'f']
  else if 32 ≤ c.toNat && c.toNat ≤ 126 then [c]
  else if c.toNat < 65536 then bslash :: 'u' :: toHex4 c.toNat
  else
    (bslash :: 'u' :: toHex4 (55296 + (c.toNat - 65536) / 1024)) ++
    (bslash :: 'u' :: toHex4 (56320 + (c.toNat - 65536) % 1024))

/-- Serialize a string with quotes and escapes as `json.dumps` does. -/
def escString (s : String) : List Char :=
  dquote :: (s.data.map escChar).flatten ++ [dquote]

mutual

/-- Characters of `json.dumps(v)` with the default separators. -/
def dumpsV : JVal → List Char
  | .nullv => ('n' :: ('u' :: ('l' :: ('l' :: []))))
  | .boolv true => ('t' :: ('r' :: ('u' :: ('e' :: []))))
  | .boolv false => ('f' :: ('a' :: ('l' :: ('s' :: ('e' :: [])))))
  | .num n => intRepr n
  | .str s => escString s
  | .arr .nil => ['[', ']']
  | .arr (.cons x xs) => '[' :: (dumpsV x ++ dumpsArr xs ++ [']'])
  | .obj .nil => [lbrace, rbrace]
  | .obj (.cons k v rest) =>
    lbrace :: (escString k ++ ':' :: ' ' :: dumpsV v ++ dumpsObj rest ++ [rbrace])

/-- Remaining array elements, each preceded by the `", "` separator. -/
def dumpsArr : JArr → List Char
  | .nil => []
  | .cons x xs => ',' :: ' ' :: dumpsV x ++ dumpsArr xs

/-- Remaining object members, each preceded by the `", "` separator. -/
def dumpsObj : JObj → List Char
  | .nil => []
  | .cons k v rest => ',' :: ' ' :: escString k ++ ':' :: ' ' :: dumpsV v ++ dumpsObj rest

end

/-- Python `json.dumps` with default options (integer-number subset). -/
def dumps (v : JVal) : String := ⟨dumpsV v⟩

/-- Value of one hex digit, case-insensitive. -/
def hexVal (c : Char) : Option Nat :=
  if '0' ≤ c && c ≤ '9' then some (c.toNat - 48)
  else if 'a' ≤ c && c ≤ 'f' then some (c.toNat - 87)
  else if 'A' ≤ c && c ≤ 'F' then some (c.toNat - 55)
  else none

/-- Parse exactly four hex digits. -/
def parse4Hex : List Char → Option (Nat × List Char)
  | a :: b :: c :: d :: rest =>
    match hexVal a, hexVal b, hexVal c, hexVal d with
    | some x, some y, some z, some w => some ((((x * 16 + y) * 16 + z) * 16 + w), rest)
    | _, _, _, _ => none
  | _ => none

/-- Decode a JSON string body (after the opening quote) as Python's strict
decoder: raw control characters are rejected, the escapes are the eight
shorthands plus `\uXXXX` with surrogate-pair combination.  Lone surrogates
(which Python keeps as unpaired code units) are outside the model and fail. -/
def parseStrBody : Nat → List Char → Option (List Char × List Char)
  | 0, _ => none
  | _ + 1, [] => none
  | fuel + 1, c :: rest =>
    if c = dquote then some ([], rest)
    else if c = bslash then
      match rest with
      | [] => none
      | e :: rest2 =>
        if e = dquote then (parseStrBody fuel rest2).map (fun p => (dquote :: p.1, p.2))
        else if e = bslash then (parseStrBody fuel rest2).map (fun p => (bslash :: p.1, p.2))
        else if e = '/' then (parseStrBody fuel rest2).map (fun p => ('/' :: p.1, p.2))
        else if e = 'b' then (parseStrBody fuel rest2).map (fun p => (Char.ofNat 8 :: p.1, p.2))
        else if e = 'f' then (parseStrBody fuel rest2).map (fun p => (Char.ofNat 12 :: p.1, p.2))
        else if e = 'n' then (parseStrBody fuel rest2).map (fun p => ('\n' :: p.1, p.2))
        else if e = 'r' then (parseStrBody fuel rest2).map (fun p => ('\r' :: p.1, p.2))
        else if e = 't' then (parseStrBody fuel rest2).map (fun p => ('\t' :: p.1, p.2))
        else if e = 'u' then
          match parse4Hex rest2 with
          | none => none
          | some (n, r3) =>
            if n < 55296 || 57344 ≤ n then
              (parseStrBody fuel r3).map (fun p => (Char.ofNat n :: p.1, p.2))
            else if n < 56320 then
              match r3 with
              | b1 :: u1 :: r5 =>
                if b1 = bslash && u1 = 'u' then
                  match parse4Hex r5 with
                  | some (m, r6) =>
                    if 56320 ≤ m && m < 57344 then
                      (parseStrBody fuel r6).map
                        (fun p => (Char.ofNat (65536 + (n - 55296) * 1024 + (m - 56320)) :: p.1, p.2))
                    else none
                  | none => none
                else none
              | _ => none
            else none
        else none
    else if c.toNat < 32 then none
    else (parseStrBody fuel rest).map (fun p => (c :: p.1, p.2))

/-- Digits to a natural number. -/
def digitsToNat (ds : List Char) : Nat :=
  ds.foldl (fun a c => a * 10 + (c.toNat - 48)) 0

/-- Parse a JSON unsigned integer literal (no leading zeros); fractional or
exponent continuations (Python floats) are outside the model and fail. -/
def parseNat : List Char → Option (Nat × List Char)
  | [] => none
  | c :: rest =>
    if c = '0' then
      match rest with
      | d :: _ => if d = '.' || d = 'e' || d = 'E' then none else some (0, rest)
      | [] => some (0, rest)
    else if isDig c then
      let ds := (c :: rest).takeWhile isDig
      let r := (c :: rest).drop ds.length
      match r with
      | d :: _ => if d = '.' || d = 'e' || d = 'E' then none else some (digitsToNat ds, r)
      | [] => some (digitsToNat ds, r)
    else none

/-- Parse a JSON integer literal with optional sign. -/
def parseNum : List Char → Option (Int × List Char)
  | [] => none
  | c :: rest =>
    if c = '-' then (parseNat rest).map (fun p => (-(p.1 : Int), p.2))
    else (parseNat (c :: rest)).map (fun p => ((p.1 : Int), p.2))

/-- Expect one literal character at the head. -/
def expectCh (t : Char) : List Char → Option (List Char)
  | c :: r => if c = t then some r else none
  | [] => none

mutual

/-- Parse one JSON value at the head of the input (no leading whitespace). -/
def parseVal : Nat → List Char → Option (JVal × List Char)
  | 0, _ => none
  | fuel + 1, s =>
    match s with
    | [] => none
    | c :: rest =>
      if c = dquote then
        (parseStrBody (rest.length + 1) rest).bind
          (fun p => some (.str ⟨p.1⟩, p.2))
      else if c = lbrace then
        (parseObjBody fuel (skipWs rest)).bind (fun p => some (.obj p.1, p.2))
      else if c = '[' then
        (parseArrBody fuel (skipWs rest)).bind (fun p => some (.arr p.1, p.2))
      else if c = 't' then
        if listHasPre ['r', 'u', 'e'] rest then some (.boolv true, rest.drop 3) else none
      else if c = 'f' then
        if listHasPre ['a', 'l', 's', 'e'] rest then some (.boolv false, rest.drop 4) else none
      else if c = 'n' then
        if listHasPre ['u', 'l', 'l'] rest then some (.nullv, rest.drop 3) else none
      else
        (parseNum s).bind (fun p => some (.num p.1, p.2))

/-- Parse an object body after the opening brace (whitespace already skipped). -/
def parseObjBody : Nat → List Char → Option (JObj × List Char)
  | 0, _ => none
  | fuel + 1, s =>
    match s with
    | [] => none
    | c :: _ =>
      if c = rbrace then some (.nil, s.drop 1)
      else (parseMembers fuel s).bind (fun p => some (objOfPairs p.1, p.2))

/-- Parse one or more `"key": value` members separated by commas, returning
the decoded pairs in source order. -/
def parseMembers : Nat → List Char → Option (List (String × JVal) × List Char)
  | 0, _ => none
  | fuel + 1, s =>
    match s with
    | c :: rest =>
      if c = dquote then
        (parseStrBody (rest.length + 1) rest).bind (fun pk =>
          (expectCh ':' (skipWs pk.2)).bind (fun r2 =>
            (parseVal fuel (skipWs r2)).bind (fun pv =>
              ((expectCh ',' (skipWs pv.2)).bind (fun r4 =>
                (parseMembers fuel (skipWs r4)).bind (fun pm =>
                  some (((⟨pk.1⟩ : String), pv.1) :: pm.1, pm.2)))) <|>
              ((expectCh rbrace (skipWs pv.2)).bind (fun r4 =>
                some ([((⟨pk.1⟩ : String), pv.1)], r4))))))
      else none
    | [] => none

/-- Parse an array body after the opening bracket (whitespace already skipped). -/
def parseArrBody : Nat → List Char → Option (JArr × List Char)
  | 0, _ => none
  | fuel + 1, s =>
    match s with
    | [] => none
    | c :: _ =>
      if c = ']' then some (.nil, s.drop 1)
      else (parseElems fuel s).bind (fun p => some (p.1, p.2))

/-- Parse one or more array elements separated by commas. -/
def parseElems : Nat → List Char → Option (JArr × List Char)
  | 0, _ => none
  | fuel + 1, s =>
    (parseVal fuel s).bind (fun p =>
      ((expectCh ',' (skipWs p.2)).bind (fun r2 =>
        (parseElems fuel (skipWs r2)).bind (fun q => some (.cons p.1 q.1, q.2)))) <|>
      ((expectCh ']' (skipWs p.2)).bind (fun r2 => some (.cons p.1 .nil, r2))))

end

/-- Python `json.loads` on the modelled subset: one value, surrounding
whitespace allowed, trailing data rejected.  The recursion budget
`3 * length + 1` dominates the parser's needs (three frames are opened per
consumed bracket/brace), so it never cuts off a parse Python would finish. -/
def loads (s : String) : Option JVal :=
  let t := skipWs s.data
  match parseVal (3 * t.length + 1) t with
  | some (v, r) => if skipWs r = [] then some v else none
  | none => none

/-! Text Pattern Matcher: the four strategies of `detect_tool_calls_in_text`.
The two regex strategies are embedded by backtracking matchers with Python's
leftmost-greedy semantics; `re.finditer` is embedded by a scan that emits
non-overlapping matches left to right, resuming after each match. -/

/-- Candidate tool call mined from text: the `{"name": ..., "arguments": ...}`
dict built by the matcher (the decoded `name` value may be any JSON value). -/
structure Cand where
  name : JVal
  arguments : JVal
deriving DecidableEq, Repr

/-- Character class `[^{}]` of the strict-scan pattern. -/
def nonBrace (c : Char) : Bool := c ≠ lbrace && c ≠ rbrace

/-- Match one literal character, then continue. -/
def litCh (c : Char) (s : List Char) (k : List Char → Option (List Char)) :
    Option (List Char) :=
  match s with
  | d :: rest => if d = c then k rest else none
  | [] => none

/-- Match a literal character sequence, then continue. -/
def litSeq (w : List Char) (s : List Char) (k : List Char → Option (List Char)) :
    Option (List Char) :=
  if listHasPre w s then k (s.drop w.length) else none

/-- Backtracking worker for a greedy `cls*`: try consuming `m` class
characters, then fewer, until the continuation succeeds. -/
def starClsGo (s : List Char) (k : List Char → Option (List Char)) :
    Nat → Option (List Char)
  | 0 => k s
  | m + 1 =>
    match k (s.drop (m + 1)) with
    | some r => some r
    | none => starClsGo s k m

/-- Greedy `cls*` with backtracking (longest first). -/
def starCls (p : Char → Bool) (s : List Char) (k : List Char → Option (List Char)) :
    Option (List Char) :=
  starClsGo s k (s.takeWhile p).length

/-- Greedy `(...)?` for the nested-object group `\x7b[^\x7b\x7d]*\x7d[^\x7b\x7d]*`:
prefer taking the group, fall back to skipping it. -/
def optNested (s : List Char) (k : List Char → Option (List Char)) :
    Option (List Char) :=
  match
    litCh lbrace s (fun t1 =>
      starCls nonBrace t1 (fun t2 =>
        litCh rbrace t2 (fun t3 =>
          starCls nonBrace t3 k)))
  with
  | some r => some r
  | none => k s

/-- The literal `"name"` (with its quotes). -/
def quoteName : List Char :=
  dquote :: ('n' :: ('a' :: ('m' :: ('e' :: [dquote]))))

/-- The literal `"arguments"` (with its quotes). -/
def quoteArguments : List Char :=
  dquote :: ('a' :: ('r' :: ('g' :: ('u' :: ('m' :: ('e' :: ('n' :: ('t' :: ('s' :: [dquote])))))))))

/-- Anchored leftmost-greedy match of the strict-scan pattern
`\x7b[^\x7b\x7d]*"name"[^\x7b\x7d]*"arguments"[^\x7b\x7d]*(?:\x7b[^\x7b\x7d]*\x7d[^\x7b\x7d]*)?\x7d`
at the head of `s`; returns the rest after the match. -/
def matchP1At (s : List Char) : Option (List Char) :=
  litCh lbrace s (fun s1 =>
    starCls nonBrace s1 (fun s2 =>
      litSeq quoteName s2 (fun s3 =>
        starCls nonBrace s3 (fun s4 =>
          litSeq quoteArguments s4 (fun s5 =>
            starCls nonBrace s5 (fun s6 =>
              optNested s6 (fun s7 =>
                litCh rbrace s7 some)))))))

/-- Non-overlapping left-to-right matches of the strict-scan pattern
(`re.finditer`), returning the matched spans. -/
def scanP1 : Nat → List Char → List (List Char)
  | 0, _ => []
  | _ + 1, [] => []
  | fuel + 1, c :: cs =>
    match matchP1At (c :: cs) with
    | some rest =>
      ((c :: cs).take ((c :: cs).length - rest.length)) :: scanP1 fuel rest
    | none => scanP1 fuel cs

/-- Keep a decoded object that has both keys, as strategies 1 and 2 do:
the candidate is `(obj["name"], obj.get("arguments", \x7b\x7d))` (the
`.get` default is unreachable because the key was just checked). -/
def candOfObj (o : JObj) : Option Cand :=
  if jhasKey ("name") o && jhasKey ("arguments") o then
    some ⟨(jlookup ("name") o).getD .nullv, (jlookup ("arguments") o).getD (.obj .nil)⟩
  else none

/-- Decode one span and keep it if it is an object with both keys; decode
failures are silently dropped (the `except ... continue`). -/
def candOfSpan (span : List Char) : Option Cand :=
  match loads ⟨span⟩ with
  | some (.obj o) => candOfObj o
  | _ => none

/-- Strategy 1: strict JSON-object scan. -/
def jsonObjectScan (text : String) : List Cand :=
  (scanP1 text.data.length text.data).filterMap candOfSpan

/-- Brace-depth walk of strategy 2: emit the span each time the depth
returns to zero with a recorded start index. -/
def braceWalkAux (text : List Char) :
    List Char → Nat → Int → Option Nat → List (List Char)
  | [], _, _, _ => []
  | c :: cs, i, depth, start =>
    if c = lbrace then
      braceWalkAux text cs (i + 1) (depth + 1) (if depth = 0 then some i else start)
    else if c = rbrace then
      match start with
      | some s0 =>
        if depth - 1 = 0 then
          ((text.drop s0).take (i + 1 - s0)) ::
            braceWalkAux text cs (i + 1) (depth - 1) none
        else braceWalkAux text cs (i + 1) (depth - 1) start
      | none => braceWalkAux text cs (i + 1) (depth - 1) none
    else braceWalkAux text cs (i + 1) depth start

/-- Strategy 2: brace-balanced scan (pattern 1b). -/
def braceBalancedScan (text : String) : List Cand :=
  (braceWalkAux text.data text.data 0 0 none).filterMap candOfSpan

/-- Case-insensitive literal-prefix test (the `re.IGNORECASE` literals). -/
def listHasPreCI : List Char → List Char → Bool
  | [], _ => true
  | _ :: _, [] => false
  | c :: cs, d :: ds => (Char.toLower c = Char.toLower d) && listHasPreCI cs ds

/-- The literal `Tool:`. -/
def litTool : List Char := 'T' :: ('o' :: ('o' :: ('l' :: [':'])))

/-- The literal `Arguments:`. -/
def litArguments : List Char :=
  'A' :: ('r' :: ('g' :: ('u' :: ('m' :: ('e' :: ('n' :: ('t' :: ('s' :: [':']))))))))

/-- Anchored match of the label-pair pattern
`Tool:\s*(\w+)\s+Arguments:\s*(\x7b[^\x7d]*\x7d)` (case-insensitive labels).
All quantifiers here are forced, so no backtracking is needed: each greedy
run is maximal and the following literal cannot begin with a run character.
Returns (group 1, group 2, rest after the match). -/
def matchP2At (s : List Char) : Option (List Char × List Char × List Char) :=
  if listHasPreCI litTool s then
    let s1 := (s.drop 5).dropWhile isPyWs
    let nm := s1.takeWhile isWordChar
    if nm.isEmpty then none
    else
      let s2 := s1.drop nm.length
      let sp := s2.takeWhile isPyWs
      if sp.isEmpty then none
      else
        let s3 := s2.drop sp.length
        if listHasPreCI litArguments s3 then
          let s4 := (s3.drop 10).dropWhile isPyWs
          match s4 with
          | c :: body0 =>
            if c = lbrace then
              let body := body0.takeWhile (fun d => d ≠ rbrace)
              match body0.drop body.length with
              | d :: rest =>
                if d = rbrace then some (nm, lbrace :: (body ++ [rbrace]), rest)
                else none
              | [] => none
            else none
          | [] => none
        else none
  else none

/-- Non-overlapping left-to-right matches of the label-pair pattern. -/
def scanP2 : Nat → List Char → List (List Char × List Char)
  | 0, _ => []
  | _ + 1, [] => []
  | fuel + 1, c :: cs =>
    match matchP2At (c :: cs) with
    | some (nm, span, rest) => (nm, span) :: scanP2 fuel rest
    | none => scanP2 fuel cs

/-- Strategy 3: label-pair scan (`Tool: X` / `Arguments: \x7b...\x7d`). -/
def labelScan (text : String) : List Cand :=
  (scanP2 text.data.length text.data).filterMap (fun p =>
    match loads ⟨p.2⟩ with
    | some v => some ⟨.str ⟨p.1⟩, v⟩
    | none => none)

/-- The fixed registry of common tool names consulted by strategy 4. -/
def commonTools : List String :=
  [("read_file"), ("write_file"), ("list_dir"), ("grep"),
   ("git_status"), ("git_diff"), ("git_commit_all"), ("git_current_branch"),
   ("git_checkout"), ("git_create_branch"),
   ("run_cmd"), ("mkdir"), ("remove"), ("apply_patch"),
   ("run_tests"), ("update_prd"), ("append_progress"), ("get_next_story"),
   ("docker_build"), ("docker_compose_up"), ("docker_compose_down"),
   ("docker_exec"), ("docker_logs"), ("docker_ps"), ("docker_test")]

/-- Anchored match of the call-syntax pattern `(\w+)\(\s*(\x7b[^\x7d]*\x7d)\s*\)`.
As with the label pattern, every quantifier is forced, so the match is
deterministic. Returns (group 1, group 2, rest after the match). -/
def matchP4At (s : List Char) : Option (List Char × List Char × List Char) :=
  let nm := s.takeWhile isWordChar
  if nm.isEmpty then none
  else
    match s.drop nm.length with
    | c :: s1 =>
      if c = '(' then
        match s1.dropWhile isPyWs with
        | d :: body0 =>
          if d = lbrace then
            let body := body0.takeWhile (fun e => e ≠ rbrace)
            match body0.drop body.length with
            | e :: s2 =>
              if e = rbrace then
                match s2.dropWhile isPyWs with
                | f :: rest =>
                  if f = ')' then some (nm, lbrace :: (body ++ [rbrace]), rest)
                  else none
                | [] => none
              else none
            | [] => none
          else none
        | [] => none
      else none
    | [] => none

/-- Non-overlapping left-to-right matches of the call-syntax pattern. -/
def scanP4 : Nat → List Char → List (List Char × List Char)
  | 0, _ => []
  | _ + 1, [] => []
  | fuel + 1, c :: cs =>
    match matchP4At (c :: cs) with
    | some (nm, span, rest) => (nm, span) :: scanP4 fuel rest
    | none => scanP4 fuel cs

/-- Strategy 4: function-call-syntax scan, filtered by the name registry. -/
def funcCallScan (text : String) : List Cand :=
  (scanP4 text.data.length text.data).filterMap (fun p =>
    if commonTools.contains ⟨p.1⟩ then
      match loads ⟨p.2⟩ with
      | some v => some ⟨.str ⟨p.1⟩, v⟩
      | none => none
    else none)

/-- The Text Pattern Matcher `detect_tool_calls_in_text`: strategies applied
in order, strategy 2 only when strategy 1 appended nothing. -/
def detect_tool_calls_in_text (text : String) : List Cand :=
  let tc1 := jsonObjectScan text
  let tc2 := if tc1.isEmpty then tc1 ++ braceBalancedScan text else tc1
  (tc2 ++ labelScan text) ++ funcCallScan text

/-! Call Extractor, Deduplicator, Progress Detector. -/

/-- Single-quote as a string. -/
def sq : String := String.singleton squote

/-- Serialized or already-decoded native argument payload
(the `isinstance(tc.function.arguments, str)` distinction). -/
inductive ArgPayload where
  | raw : String → ArgPayload
  | objv : JVal → ArgPayload
deriving DecidableEq, Repr

/-- One provider-native structured tool call (`tc.id`, `tc.function.name`,
`tc.function.arguments`). -/
structure NativeCall where
  id : String
  fname : String
  fargs : ArgPayload
deriving DecidableEq, Repr

/-- A provider turn: native calls (empty models absent/None) and content
(`None` models a missing content field). -/
structure RespMsg where
  tool_calls : List NativeCall
  content : Option String
deriving DecidableEq, Repr

/-- Python `message.content or ""`. -/
def respText (r : RespMsg) : String := r.content.getD ""

/-- A canonical tool call after extraction; `id` is optional because the
driver reads it with `.get("id", ...)`. -/
structure ToolCall where
  name : JVal
  arguments : JVal
  id : Option String
deriving DecidableEq, Repr

/-- Decode a native argument payload:
`json.loads(args) if isinstance(args, str) else args`. -/
def decodeArg : ArgPayload → Option JVal
  | .raw s => loads s
  | .objv j => some j

/-- Convert native calls in order; a `json.loads` failure on a serialized
payload is an uncaught exception (it propagates out of extraction). -/
def convNative : List NativeCall → Except Unit (List ToolCall)
  | [] => .ok []
  | tc :: rest =>
    match decodeArg tc.fargs with
    | some a =>
      match convNative rest with
      | .ok l => .ok (⟨.str tc.fname, a, some tc.id⟩ :: l)
      | .error e => .error e
    | none => .error ()

/-- Canonical re-encoding of one mined candidate, as the extractor removes it
from the reasoning text: `json.dumps(\x7b"name": ..., "arguments": ...\x7d)`. -/
def candDump (c : Cand) : String :=
  dumps (.obj (.cons ("name") c.name (.cons ("arguments") c.arguments .nil)))

/-- The Call Extractor `extract_tool_calls`: native structured calls win and
skip text mining; otherwise mined candidates get synthetic ids
`text_tool_<k>` in discovery order and their re-encodings are removed from
the reasoning text. -/
def extract_tool_calls (msg : RespMsg) (response_text : String) :
    Except Unit (List ToolCall × String) :=
  if msg.tool_calls ≠ [] then
    match convNative msg.tool_calls with
    | .ok calls => .ok (calls, response_text)
    | .error e => .error e
  else if response_text ≠ "" then
    let detected := detect_tool_calls_in_text response_text
    if detected ≠ [] then
      let cleaned := detected.foldl (fun acc c => replaceAll acc (candDump c)) response_text
      let calls := detected.enum.map
        (fun p => (⟨p.2.name, p.2.arguments, some ("text_tool_" ++ toString p.1)⟩ : ToolCall))
      .ok (calls, pyStrip cleaned)
    else .ok ([], response_text)
  else .ok ([], response_text)

/-- The Deduplicator `deduplicate_tool_calls`: drop a candidate iff its
(name, arguments) pair equals some recent reference pair. -/
def deduplicate_tool_calls : List ToolCall → List (JVal × JVal) → List ToolCall
  | [], _ => []
  | call :: rest, recent_calls =>
    if recent_calls.any (fun rc => call.name = rc.1 && call.arguments = rc.2) then
      deduplicate_tool_calls rest recent_calls
    else call :: deduplicate_tool_calls rest recent_calls

/-- A conversation-history message. `tool_calls` carries the native records
attached to an assistant message (empty when absent). -/
structure Msg where
  role : String
  content : String
  tool_call_id : Option String
  tool_calls : List NativeCall
deriving DecidableEq, Repr

/-- The fixed success-marker lexicon of `has_progress_markers`. -/
def progress_indicators : List String :=
  [("successfully wrote to"), ("committed:"), ("patch applied successfully"),
   ("created directory:"), ("✓"), ("✅"), ("success"), ("\"passes\": true"),
   ("test passed"), ("all tests passed")]

/-- The Progress Detector `has_progress_markers`: does some tool-role message
in the window contain, case-insensitively, a lexicon entry? -/
def has_progress_markers (messages : List Msg) (since_step : Int) : Bool :=
  let recent_messages :=
    if since_step < 0 then pyTail since_step.natAbs messages else pyTail 3 messages
  recent_messages.any (fun m =>
    m.role = "tool" &&
    progress_indicators.any (fun ind => strIn (lowerStr ind) (lowerStr m.content)))

/-! Tool Invocation Boundary: `ToolExecutor.execute`.  The individual tool
method bodies perform file/git/process/container effects and are external
collaborators; each is abstracted as an oracle that either returns a text
result or raises (models `Except String String`, the error being `str(e)`).
The dispatch, argument extraction and the exception firewall are embedded
faithfully. -/

/-- Python `arguments[key]`: `KeyError` on a missing key (whose `str` is the
quoted key), `TypeError` on a non-dict; both become raised exceptions. -/
def pyIndex (args : JVal) (key : String) : Except String JVal :=
  match args with
  | .obj o =>
    match jlookup key o with
    | some v => .ok v
    | none => .error (sq ++ key ++ sq)
  | _ => .error ("argument indexing on a non-object")

/-- Python `arguments.get(key, dflt)`; raises on a non-dict receiver. -/
def pyGet (args : JVal) (key : String) (dflt : JVal) : Except String JVal :=
  match args with
  | .obj o => .ok ((jlookup key o).getD dflt)
  | _ => .error ("attribute get on a non-object")

/-- Oracles for the 25 tool implementations (external effects). -/
structure ToolImpls where
  readFile : JVal → Except String String
  listDir : JVal → Except String String
  grepTool : JVal → JVal → Except String String
  gitStatus : Except String String
  gitDiff : JVal → Except String String
  writeFile : JVal → JVal → Except String String
  applyPatch : JVal → Except String String
  runCmd : JVal → JVal → Except String String
  mkdirTool : JVal → Except String String
  removeTool : JVal → Except String String
  gitCheckout : JVal → Except String String
  gitCreateBranch : JVal → JVal → Except String String
  gitCommitAll : JVal → Except String String
  gitCurrentBranch : Except String String
  runTests : JVal → Except String String
  updatePrd : JVal → JVal → JVal → Except String String
  appendProgress : JVal → JVal → JVal → JVal → Except String String
  getNextStory : Except String String
  dockerBuild : JVal → JVal → JVal → Except String String
  dockerComposeUp : JVal → JVal → JVal → Except String String
  dockerComposeDown : JVal → JVal → Except String String
  dockerExec : JVal → JVal → Except String String
  dockerLogs : JVal → JVal → Except String String
  dockerPs : JVal → Except String String
  dockerTest : JVal → JVal → Except String String

/-- The dispatch body of `ToolExecutor.execute` (inside the `try`). -/
def executeGo (impls : ToolImpls) (tool_name : String) (arguments : JVal) :
    Except String String :=
  if tool_name = "read_file" then do
    impls.readFile (← pyIndex arguments ("path"))
  else if tool_name = "list_dir" then do
    impls.listDir (← pyIndex arguments ("path"))
  else if tool_name = "grep" then do
    let a ← pyIndex arguments ("pattern")
    let b ← pyIndex arguments ("path")
    impls.grepTool a b
  else if tool_name = "git_status" then
    impls.gitStatus
  else if tool_name = "git_diff" then do
    impls.gitDiff (← pyGet arguments ("cached") (.boolv false))
  else if tool_name = "write_file" then do
    let a ← pyIndex arguments ("path")
    let b ← pyIndex arguments ("content")
    impls.writeFile a b
  else if tool_name = "apply_patch" then do
    impls.applyPatch (← pyIndex arguments ("patch"))
  else if tool_name = "run_cmd" then do
    let a ← pyIndex arguments ("command")
    let b ← pyGet arguments ("cwd") (.str ("."))
    impls.runCmd a b
  else if tool_name = "mkdir" then do
    impls.mkdirTool (← pyIndex arguments ("path"))
  else if tool_name = "remove" then do
    impls.removeTool (← pyIndex arguments ("path"))
  else if tool_name = "git_checkout" then do
    impls.gitCheckout (← pyIndex arguments ("branch"))
  else if tool_name = "git_create_branch" then do
    let a ← pyIndex arguments ("branch")
    let b ← pyGet arguments ("from_ref") (.str ("main"))
    impls.gitCreateBranch a b
  else if tool_name = "git_commit_all" then do
    impls.gitCommitAll (← pyIndex arguments ("message"))
  else if tool_name = "git_current_branch" then
    impls.gitCurrentBranch
  else if tool_name = "run_tests" then do
    impls.runTests (← pyIndex arguments ("command"))
  else if tool_name = "update_prd" then do
    let a ← pyIndex arguments ("story_id")
    let b ← pyIndex arguments ("passes")
    let c ← pyGet arguments ("notes") (.str (""))
    impls.updatePrd a b c
  else if tool_name = "append_progress" then do
    let a ← pyIndex arguments ("story_id")
    let b ← pyIndex arguments ("summary")
    let c ← pyGet arguments ("files_changed") (.arr .nil)
    let d ← pyGet arguments ("learnings") (.str (""))
    impls.appendProgress a b c d
  else if tool_name = "get_next_story" then
    impls.getNextStory
  else if tool_name = "docker_build" then do
    let a ← pyIndex arguments ("tag")
    let b ← pyIndex arguments ("context")
    let c ← pyGet arguments ("dockerfile") (.str ("Dockerfile"))
    impls.dockerBuild a b c
  else if tool_name = "docker_compose_up" then do
    let a ← pyIndex arguments ("compose_file")
    let b ← pyGet arguments ("detach") (.boolv true)
    let c ← pyGet arguments ("build") (.boolv false)
    impls.dockerComposeUp a b c
  else if tool_name = "docker_compose_down" then do
    let a ← pyIndex arguments ("compose_file")
    let b ← pyGet arguments ("volumes") (.boolv false)
    impls.dockerComposeDown a b
  else if tool_name = "docker_exec" then do
    let a ← pyIndex arguments ("container")
    let b ← pyIndex arguments ("command")
    impls.dockerExec a b
  else if tool_name = "docker_logs" then do
    let a ← pyIndex arguments ("container")
    let b ← pyGet arguments ("tail") (.num 100)
    impls.dockerLogs a b
  else if tool_name = "docker_ps" then do
    impls.dockerPs (← pyGet arguments ("all") (.boolv false))
  else if tool_name = "docker_test" then do
    let a ← pyIndex arguments ("test_command")
    let b ← pyGet arguments ("container") .nullv
    impls.dockerTest a b
  else
    .ok ("Error: Unknown tool " ++ sq ++ tool_name ++ sq)

/-- `ToolExecutor.execute`: the whole dispatch runs inside `try`, and any
raised exception is converted to a descriptive text result. -/
def ToolExecutor_execute (impls : ToolImpls) (tool_name : String)
    (arguments : JVal) : String :=
  match executeGo impls tool_name arguments with
  | .ok s => s
  | .error e => "Error executing " ++ tool_name ++ ": " ++ e

/-! Conversation Driver: the tool-calling loop of `main`. -/

/-- Best-effort rendering of a name value in an f-string (tool names are
strings in every reachable case claimed about; the non-string renderings
are a model approximation of Python `str`, and no claim reads them). -/
def pyShow : JVal → String
  | .str s => s
  | .num n => toString n
  | .boolv true => ("True")
  | .boolv false => ("False")
  | .nullv => ("None")
  | .arr _ => ("[...]")
  | .obj _ => ("...")

/-- Mutable loop state of `main`. -/
structure DrState where
  messages : List Msg
  recent : List (JVal × JVal)
  steps : Nat
  trace : List (ToolCall × Msg)
deriving Repr

/-- Execute the surviving calls of one turn in order: produces the appended
tool-result messages, the new recent-history entries, and the trace pairing
each executed call with its result message. -/
def execCalls (exec : JVal → JVal → String) (stepCount : Nat) :
    List ToolCall → List Msg × List (JVal × JVal) × List (ToolCall × Msg)
  | [] => ([], [], [])
  | tc :: rest =>
    let tool_id := tc.id.getD ("call_" ++ toString stepCount)
    let result := exec tc.name tc.arguments
    let tmsg : Msg :=
      ⟨"tool", "TOOL RESULT (" ++ pyShow tc.name ++ "):\n" ++ result, some tool_id, []⟩
    let r := execCalls exec stepCount rest
    (tmsg :: r.1, (tc.name, tc.arguments) :: r.2.1, (tc, tmsg) :: r.2.2)

/-- The calls one iteration will execute: deduplication against the last 3
recent entries, applied only when the extracted list is non-empty. -/
def driverCalls (calls0 : List ToolCall) (recent : List (JVal × JVal)) :
    List ToolCall :=
  if calls0.isEmpty then calls0
  else deduplicate_tool_calls calls0 (pyTail 3 recent)

/-- State update of one full iteration: append the assistant message and the
tool results, extend the recent history (trimming it beyond capacity 10),
advance the step counter, and record the trace. -/
def stepState (exec : JVal → JVal → String) (resp : RespMsg)
    (pr : List ToolCall × String) (st : DrState) : DrState :=
  let calls := driverCalls pr.1 st.recent
  let amsg : Msg := ⟨("assistant"), pr.2, none, resp.tool_calls⟩
  let r := execCalls exec st.steps calls
  let recent2 := st.recent ++ r.2.1
  ⟨st.messages ++ amsg :: r.1,
   if recent2.length > 10 then pyTail 10 recent2 else recent2,
   st.steps + 1,
   st.trace ++ r.2.2⟩

/-- One run of the `while step_count < max_steps` loop, by the remaining
step budget; returns the final state and the process exit code (the
`except` handler returns 1, normal loop exit returns 0). -/
def runLoop (provider : List Msg → Except Unit RespMsg)
    (exec : JVal → JVal → String) : Nat → DrState → DrState × Nat
  | 0, st => (st, 0)
  | fuel + 1, st =>
    match provider st.messages with
    | .error _ => (st, 1)
    | .ok resp =>
      match extract_tool_calls resp (respText resp) with
      | .error _ => (st, 1)
      | .ok pr =>
        if (driverCalls pr.1 st.recent).isEmpty then (st, 0)
        else runLoop provider exec fuel (stepState exec resp pr st)

/-- Result of a whole driver run. -/
structure DriverResult where
  messages : List Msg
  recent : List (JVal × JVal)
  steps : Nat
  exitCode : Nat
  warned : Bool
  trace : List (ToolCall × Msg)
deriving Repr

/-- The initial conversation: system prompt plus the fixed user message. -/
def initState (systemPrompt : String) : DrState :=
  ⟨[⟨("system"), systemPrompt, none, []⟩,
    ⟨("user"), ("Begin. Follow the system instructions."), none, []⟩], [], 0, []⟩

/-- The driver `main` loop assembled: initial messages, the loop, and the
final step-exhaustion warning, which is only reached on the normal return
path (exit code 0). -/
def runMain (provider : List Msg → Except Unit RespMsg)
    (exec : JVal → JVal → String) (max_steps : Nat) (systemPrompt : String) :
    DriverResult :=
  let r := runLoop provider exec max_steps (initState systemPrompt)
  ⟨r.1.messages, r.1.recent, r.1.steps, r.2,
   r.2 = 0 && r.1.steps ≥ max_steps, r.1.trace⟩

/-! Auxiliary predicates used to state the amended round-trip property. -/

/-- Key list of an object. -/
def objKeys : JObj → List String
  | .nil => []
  | .cons k _ rest => k :: objKeys rest

/-- Member pairs of an object in order. -/
def toPairs : JObj → List (String × JVal)
  | .nil => []
  | .cons k v rest => (k, v) :: toPairs rest

mutual

/-- Do all strings (keys and values) in the value avoid brace characters? -/
def nbV : JVal → Bool
  | .nullv => true
  | .boolv _ => true
  | .num _ => true
  | .str s => s.data.all nonBrace
  | .arr xs => nbA xs
  | .obj o => nbO o

/-- Array version of `nbV`. -/
def nbA : JArr → Bool
  | .nil => true
  | .cons x xs => nbV x && nbA xs

/-- Object version of `nbV` (checks keys too). -/
def nbO : JObj → Bool
  | .nil => true
  | .cons k v rest => k.data.all nonBrace && nbV v && nbO rest

end

mutual

/-- Do all objects in the value have pairwise-distinct keys (always true of
decoded values, since Python dicts cannot hold duplicate keys)? -/
def wfV : JVal → Bool
  | .nullv => true
  | .boolv _ => true
  | .num _ => true
  | .str _ => true
  | .arr xs => wfA xs
  | .obj o => (objKeys o).Nodup && wfO o

/-- Array version of `wfV`. -/
def wfA : JArr → Bool
  | .nil => true
  | .cons x xs => wfV x && wfA xs

/-- Member version of `wfV`. -/
def wfO : JObj → Bool
  | .nil => true
  | .cons _ v rest => wfV v && wfO rest

end

/-! Concrete values used by example clauses and witnesses. -/

/-- A sample call (the repository test's `read_file` call). -/
def callA : ToolCall :=
  ⟨.str ("read_file"), .obj (.cons ("path") (.str ("prd.json")) .nil), none⟩

/-- A second, distinct sample call. -/
def callB : ToolCall := ⟨.str ("git_status"), .obj .nil, none⟩

/-- A provider turn with a native call whose serialized arguments are
malformed JSON. -/
def badNativeMsg : RespMsg :=
  ⟨[⟨("id0"), ("read_file"), .raw ("\x7bbad")⟩], some ("")⟩

/-- Text with one malformed call span followed by one well-formed span. -/
def mixedText : String :=
  ("\x7b\"name\": \"x\", \"arguments\": oops\x7d and \x7b\"name\": \"y\", \"arguments\": \x7b\x7d\x7d")

/-- The candidate mined from the well-formed part of `mixedText`. -/
def goodCand : Cand := ⟨.str ("y"), .obj .nil⟩

/-- A text the strict scan matches. -/
def strictText : String :=
  ("\x7b\"name\": \"read_file\", \"arguments\": \x7b\"path\": \"a\"\x7d\x7d")

/-- Counterexample call for the round-trip claim: its arguments hold a
string consisting of one closing brace. -/
def cexCand : Cand := ⟨.str ("x"), .obj (.cons ("s") (.str ("\x7d")) .nil)⟩

/-- A text in which `cexCand` is discovered (the brace is written with a
unicode escape, so the text's braces balance). -/
def discoveryText : String :=
  ("\x7b\"name\": \"x\", \"arguments\": \x7b\"s\": \"\\u007d\"\x7d\x7d")

/-- A candidate with nested object arguments (strategy 2 territory). -/
def nestedCand : Cand :=
  ⟨.str ("x"), .obj (.cons ("a") (.obj (.cons ("b") (.str ("y")) .nil)) .nil)⟩

/-- A provider oracle that always issues one native call whose arguments
differ from turn to turn. -/
def demoProvider (msgs : List Msg) : Except Unit RespMsg :=
  .ok ⟨[⟨("i"), ("t"), .objv (.obj (.cons ("n") (.num (msgs.length : Int)) .nil))⟩],
       some ("go")⟩

/-- A trivial executor oracle. -/
def demoExec : JVal → JVal → String := fun _ _ => ("done")

/-- A two-step demo run that exhausts its step budget. -/
def demoRun : DriverResult := runMain demoProvider demoExec 2 ("sys")

/-- Tool-role messages with and without progress markers. -/
def progMsgs : List Msg :=
  [⟨("tool"), ("TOOL RESULT (write_file):\nSuccessfully wrote to prd.json"), none, []⟩,
   ⟨("assistant"), ("File updated"), none, []⟩]

/-- The 25 tool names recognized by the executor dispatch, in source order. -/
def executorRegistry : List String :=
  [("read_file"), ("list_dir"), ("grep"), ("git_status"), ("git_diff"),
   ("write_file"), ("apply_patch"), ("run_cmd"), ("mkdir"), ("remove"),
   ("git_checkout"), ("git_create_branch"), ("git_commit_all"),
   ("git_current_branch"), ("run_tests"), ("update_prd"), ("append_progress"),
   ("get_next_story"), ("docker_build"), ("docker_compose_up"),
   ("docker_compose_down"), ("docker_exec"), ("docker_logs"), ("docker_ps"),
   ("docker_test")]

/-- Implementation oracles that always succeed with an empty result. -/
def trivialImpls : ToolImpls :=
  ⟨fun _ => .ok (""), fun _ => .ok (""), fun _ _ => .ok (""), .ok (""),
   fun _ => .ok (""), fun _ _ => .ok (""), fun _ => .ok (""), fun _ _ => .ok (""),
   fun _ => .ok (""), fun _ => .ok (""), fun _ => .ok (""), fun _ _ => .ok (""),
   fun _ => .ok (""), .ok (""), fun _ => .ok (""), fun _ _ _ => .ok (""),
   fun _ _ _ _ => .ok (""), .ok (""), fun _ _ _ => .ok (""), fun _ _ _ => .ok (""),
   fun _ _ => .ok (""), fun _ _ => .ok (""), fun _ _ => .ok (""), fun _ => .ok (""),
   fun _ _ => .ok ("")⟩

/-- The first trace pair of `demoRun`. -/
def demoPair : ToolCall × Msg :=
  (⟨.str ("t"), .obj (.cons ("n") (.num 2) .nil), some ("i")⟩,
   ⟨("tool"), ("TOOL RESULT (t):\ndone"), some ("i"), []⟩)

/-- Correlation property of one trace pair: the tool message answers its
call under the call's extractor-assigned id. -/
def corrOK (p : ToolCall × Msg) : Prop :=
  p.2.role = ("tool") ∧ p.2.tool_call_id = p.1.id ∧ p.1.id.isSome

/-! Bookkeeping for the round-trip development: recursion budgets that
dominate the parser's needs on serialized output, and brace-depth sums for
the balanced-scan argument. -/

mutual

/-- A sufficient parser budget for one serialized value. -/
def needV : JVal → Nat
  | .nullv => 1
  | .boolv _ => 1
  | .num _ => 1
  | .str _ => 1
  | .arr .nil => 2
  | .arr (.cons x xs) => 2 + needE (.cons x xs)
  | .obj .nil => 2
  | .obj (.cons k v r) => 2 + needM (.cons k v r)

/-- A sufficient `parseElems` budget for serialized array elements. -/
def needE : JArr → Nat
  | .nil => 0
  | .cons x xs => 1 + needV x + needE xs

/-- A sufficient `parseMembers` budget for serialized object members. -/
def needM : JObj → Nat
  | .nil => 0
  | .cons _ v r => 1 + needV v + needM r

end

/-- Depth contribution of one character to the brace walk. -/
def braceDelta (c : Char) : Int :=
  if c = lbrace then 1 else if c = rbrace then -1 else 0

/-- Net brace depth of a character list. -/
def braceSum (l : List Char) : Int := (l.map braceDelta).sum

/-- Every prefix has non-negative net brace depth. -/
def nonnegPre (l : List Char) : Prop := ∀ k, 0 ≤ braceSum (l.take k)

/-- May a serialized number be followed by this text? (It must not continue
with a digit or a fraction/exponent mark.) -/
def numBoundary : List Char → Bool
  | [] => true
  | d :: _ => !(isDig d) && d ≠ '.' && d ≠ 'e' && d ≠ 'E'

/-- The dict shape the matcher serializes and re-reads for a candidate. -/
def candObj (c : Cand) : JVal :=
  .obj (.cons ("name") c.name (.cons ("arguments") c.arguments .nil))

/-- Concatenation of member lists (used to reason about dict rebuilding). -/
def jappend : JObj → JObj → JObj
  | .nil, b => b
  | .cons k v r, b => .cons k v (jappend r b)

/-! Theorems.  Helper lemmas first, then one theorem per claim. -/

/-- When every native payload decodes, conversion succeeds and keeps names,
decoded arguments and ids in order. -/
theorem convNative_ok : ∀ (l : List NativeCall),
    (∀ tc ∈ l, (decodeArg tc.fargs).isSome) →
    convNative l = .ok (l.map
      (fun tc => ⟨.str tc.fname, (decodeArg tc.fargs).getD .nullv, some tc.id⟩))
  | [], _ => rfl
  | tc :: rest, h => by
    obtain ⟨a, ha⟩ := Option.isSome_iff_exists.mp (h tc (by simp))
    have ih := convNative_ok rest (fun x hx => h x (List.mem_cons_of_mem _ hx))
    simp [convNative, ha, ih]

/-- A successful conversion preserves the provider-issued ids in order. -/
theorem convNative_ids : ∀ (l : List NativeCall) (calls : List ToolCall),
    convNative l = .ok calls →
    calls.map ToolCall.id = l.map (fun tc => some tc.id)
  | [], calls, h => by
    simp only [convNative, Except.ok.injEq] at h
    subst h; rfl
  | tc :: rest, calls, h => by
    simp only [convNative] at h
    cases hd : decodeArg tc.fargs with
    | none => rw [hd] at h; exact absurd h (by simp)
    | some a =>
      rw [hd] at h
      cases hr : convNative rest with
      | error e => rw [hr] at h; exact absurd h (by simp)
      | ok l2 =>
        rw [hr] at h
        simp only [Except.ok.injEq] at h
        subst h
        simp [convNative_ids rest l2 hr]

/-- The Deduplicator equals a filter by non-membership of the pair among the
references. -/
theorem dedup_eq_filter : ∀ (calls : List ToolCall) (recent : List (JVal × JVal)),
    deduplicate_tool_calls calls recent =
      calls.filter (fun c => ! recent.any (fun rc => c.name = rc.1 && c.arguments = rc.2))
  | [], _ => rfl
  | call :: rest, recent => by
    simp only [deduplicate_tool_calls, List.filter, dedup_eq_filter rest recent]
    cases h : recent.any (fun rc => call.name = rc.1 && call.arguments = rc.2) <;> simp [h]

/-- The Boolean duplicate test decides pair-equality with some reference. -/
theorem dedup_pred_eq (recent : List (JVal × JVal)) (c : ToolCall) :
    (! recent.any (fun rc => c.name = rc.1 && c.arguments = rc.2)) =
      decide (∀ p ∈ recent, ¬(c.name = p.1 ∧ c.arguments = p.2)) := by
  rw [Bool.eq_iff_iff]
  simp [List.any_eq_true, not_and]

/-- C1: the Deduplicator returns exactly the subsequence of candidates whose
(name, arguments) pair equals no reference pair, in the original order; on
candidates [A, B, A] with the history containing A it yields [B]; and the
reference list the driver consults is only the last 3 history entries, so
histories agreeing on their last 3 entries produce the same output. -/
theorem dedup_subsequence_window3 :
    (∀ (calls : List ToolCall) (recent : List (JVal × JVal)),
        deduplicate_tool_calls calls recent =
          calls.filter (fun c =>
            decide (∀ p ∈ recent, ¬(c.name = p.1 ∧ c.arguments = p.2))) ∧
        (deduplicate_tool_calls calls recent).Sublist calls) ∧
    deduplicate_tool_calls [callA, callB, callA]
        [(callA.name, callA.arguments)] = [callB] ∧
    (∀ (calls : List ToolCall) (r r' : List (JVal × JVal)),
        pyTail 3 r = pyTail 3 r' →
        deduplicate_tool_calls calls (pyTail 3 r) =
          deduplicate_tool_calls calls (pyTail 3 r')) := by
  refine ⟨fun calls recent => ⟨?_, ?_⟩, by decide, fun calls r r' h => by rw [h]⟩
  · rw [dedup_eq_filter]
    exact List.filter_congr (fun c _ => dedup_pred_eq recent c)
  · rw [dedup_eq_filter]
    exact List.filter_sublist calls

/-- Witness for C1 at a concrete input. -/
theorem dedup_subsequence_window3_witness :
    deduplicate_tool_calls [callA, callB]
        (pyTail 3 [(callA.name, callA.arguments), (callB.name, callB.arguments),
                   (callA.name, callA.arguments), (callB.name, callB.arguments)]) =
      deduplicate_tool_calls [callA, callB]
        (pyTail 3 [(callB.name, callB.arguments), (callA.name, callA.arguments),
                   (callB.name, callB.arguments)]) :=
  dedup_subsequence_window3.2.2 [callA, callB] _ _ (by decide)

/-- C10: the Deduplicator never compares candidates against each other: a
pair matching no reference survives at every occurrence (its multiplicity is
preserved), and concretely [A, A] against a history without A yields [A, A]. -/
theorem dedup_no_cross_candidate :
    (∀ (calls : List ToolCall) (recent : List (JVal × JVal)) (c : ToolCall),
        (∀ p ∈ recent, ¬(c.name = p.1 ∧ c.arguments = p.2)) →
        (deduplicate_tool_calls calls recent).count c = calls.count c) ∧
    deduplicate_tool_calls [callA, callA] [(callB.name, callB.arguments)] =
      [callA, callA] := by
  refine ⟨fun calls recent c h => ?_, by decide⟩
  rw [dedup_eq_filter]
  refine List.count_filter ?_
  rw [dedup_pred_eq]
  exact decide_eq_true h

/-- Witness for C10 at a concrete input. -/
theorem dedup_no_cross_candidate_witness :
    (deduplicate_tool_calls [callA, callB, callA]
        [(callB.name, callB.arguments)]).count callA =
      ([callA, callB, callA] : List ToolCall).count callA :=
  dedup_no_cross_candidate.1 [callA, callB, callA] [(callB.name, callB.arguments)]
    callA (by decide)

/-- C9: the Progress Detector is true exactly when some tool-role message in
the inspected window (the last 3 messages at the default argument) contains,
case-insensitively, an entry of the fixed success lexicon. -/
theorem progress_markers_iff (messages : List Msg) :
    has_progress_markers messages (-3) = true ↔
      ∃ m ∈ pyTail 3 messages, m.role = ("tool") ∧
        ∃ ind ∈ progress_indicators,
          strIn (lowerStr ind) (lowerStr m.content) = true := by
  have hwin : ((-3 : Int) < 0) = True := by simp
  simp only [has_progress_markers, hwin, if_true, Int.natAbs_neg]
  simp [List.any_eq_true, and_assoc]

/-- Witness for C9 at a concrete input (the repository test's transcript). -/
theorem progress_markers_iff_witness :
    ∃ m ∈ pyTail 3 progMsgs, m.role = ("tool") ∧
      ∃ ind ∈ progress_indicators,
        strIn (lowerStr ind) (lowerStr m.content) = true :=
  (progress_markers_iff progMsgs).mp (by decide)

/-- C5: the brace-balanced scan contributes exactly when the strict scan
found nothing; when the strict scan found a call, any candidate only the
brace-balanced scan could discover is absent from the output. -/
theorem brace_scan_iff_strict_empty (text : String) :
    (jsonObjectScan text ≠ [] →
        detect_tool_calls_in_text text =
          (jsonObjectScan text ++ labelScan text) ++ funcCallScan text) ∧
    (jsonObjectScan text = [] →
        detect_tool_calls_in_text text =
          (braceBalancedScan text ++ labelScan text) ++ funcCallScan text) ∧
    (jsonObjectScan text ≠ [] → ∀ c : Cand,
        c ∉ jsonObjectScan text → c ∉ labelScan text → c ∉ funcCallScan text →
        c ∉ detect_tool_calls_in_text text) := by
  refine ⟨fun h => ?_, fun h => ?_, fun h c h1 h3 h4 => ?_⟩
  · simp [detect_tool_calls_in_text, List.isEmpty_iff, h]
  · simp [detect_tool_calls_in_text, h]
  · have hd : detect_tool_calls_in_text text =
        (jsonObjectScan text ++ labelScan text) ++ funcCallScan text := by
      simp [detect_tool_calls_in_text, List.isEmpty_iff, h]
    rw [hd]
    simp only [List.mem_append]
    rintro ((hc | hc) | hc) <;> [exact h1 hc; exact h3 hc; exact h4 hc]

/-- C4: a turn with native structured calls returns exactly those calls in
order, keeping each id, decoding serialized argument payloads, with the full
content text as reasoning; the output does not consult the text miner. -/
theorem native_calls_verbatim (msg : RespMsg) (text : String)
    (hne : msg.tool_calls ≠ [])
    (hdec : ∀ tc ∈ msg.tool_calls, (decodeArg tc.fargs).isSome) :
    extract_tool_calls msg text =
      .ok (msg.tool_calls.map
        (fun tc => ⟨.str tc.fname, (decodeArg tc.fargs).getD .nullv, some tc.id⟩),
        text) := by
  simp [extract_tool_calls, hne, convNative_ok _ hdec]

/-- Witness for C4 at a concrete native turn. -/
theorem native_calls_verbatim_witness :
    extract_tool_calls ⟨[⟨("i"), ("t"), .objv (.num 1)⟩], some ("hello")⟩ ("hello") =
      .ok ([⟨.str ("t"), .num 1, some ("i")⟩], ("hello")) := by
  rw [native_calls_verbatim ⟨[⟨("i"), ("t"), .objv (.num 1)⟩], some ("hello")⟩
    ("hello") (by decide) (by decide)]
  rfl

/-- Counterexample to C7 as stated: a native call whose serialized arguments
are malformed makes extraction raise (the decode error propagates). -/
theorem extract_native_raises_cex :
    extract_tool_calls badNativeMsg ("") = .error () := rfl

/-- C7 (amended): parsing-layer failures are swallowed on the text-mined
path — with no native calls present, extraction always returns normally, and
a span that fails to decode is silently discarded while decoded calls are
kept; on the native path a malformed serialized payload raises. -/
theorem parse_failures_swallowed_amended :
    (∀ (msg : RespMsg) (text : String), msg.tool_calls = [] →
        ∃ r, extract_tool_calls msg text = .ok r) ∧
    detect_tool_calls_in_text mixedText = [goodCand] ∧
    extract_tool_calls ⟨[], some mixedText⟩ mixedText =
      .ok ([⟨.str ("y"), .obj .nil, some ("text_tool_0")⟩],
        ("\x7b\"name\": \"x\", \"arguments\": oops\x7d and")) := by
  refine ⟨fun msg text h => ?_, by decide, rfl⟩
  simp only [extract_tool_calls, h, ne_eq, not_true_eq_false, if_false,
    ite_not]
  split
  · exact ⟨_, rfl⟩
  · split
    · exact ⟨_, rfl⟩
    · exact ⟨_, rfl⟩

/-- C6: the executor either returns the dispatched result or converts the
raised exception to a descriptive text (never propagating it), and an
unregistered name yields the Unknown-tool text result. -/
theorem executor_total_unknown :
    (∀ (impls : ToolImpls) (tool_name : String) (arguments : JVal),
        (∃ s, executeGo impls tool_name arguments = .ok s ∧
            ToolExecutor_execute impls tool_name arguments = s) ∨
        (∃ e, executeGo impls tool_name arguments = .error e ∧
            ToolExecutor_execute impls tool_name arguments =
              ("Error executing ") ++ tool_name ++ (": ") ++ e)) ∧
    (∀ (impls : ToolImpls) (tool_name : String) (arguments : JVal),
        tool_name ∉ executorRegistry →
        ToolExecutor_execute impls tool_name arguments =
          ("Error: Unknown tool ") ++ sq ++ tool_name ++ sq) := by
  constructor
  · intro impls tool_name arguments
    cases h : executeGo impls tool_name arguments with
    | ok s => exact Or.inl ⟨s, rfl, by simp [ToolExecutor_execute, h]⟩
    | error e => exact Or.inr ⟨e, rfl, by simp [ToolExecutor_execute, h]⟩
  · intro impls tool_name arguments h
    simp only [executorRegistry, List.mem_cons, List.not_mem_nil, or_false,
      not_or] at h
    obtain ⟨h1, h2, h3, h4, h5, h6, h7, h8, h9, h10, h11, h12, h13, h14, h15,
      h16, h17, h18, h19, h20, h21, h22, h23, h24, h25⟩ := h
    simp [ToolExecutor_execute, executeGo, h1, h2, h3, h4, h5, h6, h7, h8, h9,
      h10, h11, h12, h13, h14, h15, h16, h17, h18, h19, h20, h21, h22, h23,
      h24, h25]

/-- Witness for C7 (amended) at a concrete input without native calls. -/
theorem parse_failures_swallowed_amended_witness :
    ∃ r, extract_tool_calls ⟨[], some ("plain text")⟩ ("plain text") = .ok r :=
  parse_failures_swallowed_amended.1 ⟨[], some ("plain text")⟩ ("plain text") rfl

/-- Witness for C6 at a concrete unknown name. -/
theorem executor_total_unknown_witness :
    ToolExecutor_execute trivialImpls ("frobnicate") (.obj .nil) =
      ("Error: Unknown tool ") ++ sq ++ ("frobnicate") ++ sq :=
  executor_total_unknown.2 trivialImpls ("frobnicate") (.obj .nil) (by decide)

/-- Witness for C5 at concrete inputs on both sides of the gate. -/
theorem brace_scan_iff_strict_empty_witness :
    detect_tool_calls_in_text strictText =
      (jsonObjectScan strictText ++ labelScan strictText) ++
        funcCallScan strictText ∧
    detect_tool_calls_in_text (dumps (.obj .nil)) =
      (braceBalancedScan (dumps (.obj .nil)) ++ labelScan (dumps (.obj .nil))) ++
        funcCallScan (dumps (.obj .nil)) :=
  ⟨(brace_scan_iff_strict_empty strictText).1 (by decide),
   (brace_scan_iff_strict_empty (dumps (.obj .nil))).2.1 (by decide)⟩

/-- One full iteration advances the step counter by one. -/
theorem stepState_steps (exec : JVal → JVal → String) (resp : RespMsg)
    (pr : List ToolCall × String) (st : DrState) :
    (stepState exec resp pr st).steps = st.steps + 1 := rfl

/-- The trace after one full iteration. -/
theorem stepState_trace (exec : JVal → JVal → String) (resp : RespMsg)
    (pr : List ToolCall × String) (st : DrState) :
    (stepState exec resp pr st).trace =
      st.trace ++ (execCalls exec st.steps (driverCalls pr.1 st.recent)).2.2 := rfl

/-- Calls surviving deduplication come from the candidate list. -/
theorem dedup_mem {c : ToolCall} {calls : List ToolCall}
    {recent : List (JVal × JVal)}
    (h : c ∈ deduplicate_tool_calls calls recent) : c ∈ calls := by
  rw [dedup_eq_filter] at h
  exact (List.mem_filter.mp h).1

/-- A call the driver executes comes from the extracted candidate list. -/
theorem driverCalls_mem {tc : ToolCall} {calls0 : List ToolCall}
    {recent : List (JVal × JVal)} (h : tc ∈ driverCalls calls0 recent) :
    tc ∈ calls0 := by
  revert h
  unfold driverCalls
  split
  · exact id
  · exact dedup_mem

/-- The loop advances the step counter at most once per unit of remaining
budget. -/
theorem runLoop_steps_le (provider : List Msg → Except Unit RespMsg)
    (exec : JVal → JVal → String) :
    ∀ (fuel : Nat) (st : DrState),
      (runLoop provider exec fuel st).1.steps ≤ st.steps + fuel
  | 0, st => Nat.le_refl _
  | fuel + 1, st => by
    rw [runLoop]
    split
    · exact Nat.le_add_right _ _
    · rename_i resp hresp
      split
      · exact Nat.le_add_right _ _
      · rename_i pr hpr
        split
        · exact Nat.le_add_right _ _
        · have h := runLoop_steps_le provider exec fuel (stepState exec resp pr st)
          rw [stepState_steps] at h
          omega

/-- If the whole budget was consumed, the loop exited by its condition and
the exit code is 0. -/
theorem runLoop_exhaust (provider : List Msg → Except Unit RespMsg)
    (exec : JVal → JVal → String) :
    ∀ (fuel : Nat) (st : DrState),
      (runLoop provider exec fuel st).1.steps = st.steps + fuel →
      (runLoop provider exec fuel st).2 = 0
  | 0, _, _ => rfl
  | fuel + 1, st, h => by
    rw [runLoop] at h ⊢
    revert h
    split
    · intro h
      have h2 : st.steps = st.steps + (fuel + 1) := h
      omega
    · rename_i resp hresp
      split
      · intro h
        have h2 : st.steps = st.steps + (fuel + 1) := h
        omega
      · rename_i pr hpr
        split
        · intro h
          have h2 : st.steps = st.steps + (fuel + 1) := h
          omega
        · intro h
          refine runLoop_exhaust provider exec fuel _ ?_
          rw [stepState_steps]
          omega

/-- C3: the driver performs at most `max_steps` full iterations, and when it
stops by exhausting the budget the run is a success (exit code 0) with the
step-exhaustion warning emitted, not a failure. -/
theorem step_bound_nonfatal (provider : List Msg → Except Unit RespMsg)
    (exec : JVal → JVal → String) (N : Nat) (prompt : String) :
    (runMain provider exec N prompt).steps ≤ N ∧
    ((runMain provider exec N prompt).steps = N →
      (runMain provider exec N prompt).exitCode = 0 ∧
      (runMain provider exec N prompt).warned = true) := by
  have hs : (runMain provider exec N prompt).steps =
      (runLoop provider exec N (initState prompt)).1.steps := rfl
  refine ⟨?_, fun h => ?_⟩
  · have h1 := runLoop_steps_le provider exec N (initState prompt)
    rw [hs]
    have h2 : (initState prompt).steps = 0 := rfl
    omega
  · have h1 : (runLoop provider exec N (initState prompt)).1.steps =
        (initState prompt).steps + N := by
      have h2 : (initState prompt).steps = 0 := rfl
      rw [hs] at h
      omega
    have h0 := runLoop_exhaust provider exec N (initState prompt) h1
    refine ⟨h0, ?_⟩
    show (decide ((runLoop provider exec N (initState prompt)).2 = 0) &&
      decide ((runLoop provider exec N (initState prompt)).1.steps ≥ N)) = true
    rw [hs] at h
    simp [h0, h]

/-- Witness for C3: a demo run that exhausts a budget of 2 steps. -/
theorem step_bound_nonfatal_witness :
    demoRun.exitCode = 0 ∧ demoRun.warned = true :=
  (step_bound_nonfatal demoProvider demoExec 2 ("sys")).2 (by decide)

/-- Every id produced by a successful extraction is assigned (present). -/
theorem extract_ids_isSome (msg : RespMsg) (text : String)
    (pr : List ToolCall × String)
    (h : extract_tool_calls msg text = .ok pr) :
    ∀ c ∈ pr.1, c.id.isSome := by
  intro c hc
  revert h
  simp only [extract_tool_calls]
  split
  · intro h
    cases hn : convNative msg.tool_calls with
    | error e => rw [hn] at h; exact absurd h (by simp)
    | ok l =>
      rw [hn] at h
      simp only [Except.ok.injEq] at h
      have hm : c.id ∈ pr.1.map ToolCall.id := List.mem_map_of_mem _ hc
      rw [← h, convNative_ids msg.tool_calls l hn] at hm
      obtain ⟨tc, -, htc⟩ := List.mem_map.mp hm
      simp [← htc]
  · split
    · split
      · intro h
        simp only [Except.ok.injEq] at h
        rw [← h] at hc
        obtain ⟨p, -, hp⟩ := List.mem_map.mp hc
        simp [← hp]
      · intro h
        simp only [Except.ok.injEq] at h
        rw [← h] at hc
        simp at hc
    · intro h
      simp only [Except.ok.injEq] at h
      rw [← h] at hc
      simp at hc

/-- Each executed call's tool message carries the call's id. -/
theorem execCalls_trace (exec : JVal → JVal → String) (n : Nat) :
    ∀ (calls : List ToolCall), (∀ tc ∈ calls, tc.id.isSome) →
      ∀ p ∈ (execCalls exec n calls).2.2, corrOK p
  | [], _, p, hp => absurd hp (by simp [execCalls])
  | tc :: rest, h, p, hp => by
    simp only [execCalls, List.mem_cons] at hp
    cases hp with
    | inl he =>
      obtain ⟨a, ha⟩ := Option.isSome_iff_exists.mp (h tc (by simp))
      subst he
      exact ⟨rfl, by simp [ha], by simp [ha]⟩
    | inr he =>
      exact execCalls_trace exec n rest
        (fun x hx => h x (List.mem_cons_of_mem _ hx)) p he

/-- The loop preserves correlation of every trace pair. -/
theorem runLoop_trace (provider : List Msg → Except Unit RespMsg)
    (exec : JVal → JVal → String) :
    ∀ (fuel : Nat) (st : DrState), (∀ p ∈ st.trace, corrOK p) →
      ∀ p ∈ (runLoop provider exec fuel st).1.trace, corrOK p
  | 0, st, hst => hst
  | fuel + 1, st, hst => by
    rw [runLoop]
    split
    · exact hst
    · rename_i resp hresp
      split
      · exact hst
      · rename_i pr hpr
        split
        · exact hst
        · refine runLoop_trace provider exec fuel _ ?_
          intro p hp
          rw [stepState_trace] at hp
          rcases List.mem_append.mp hp with hp1 | hp2
          · exact hst p hp1
          · refine execCalls_trace exec st.steps _ ?_ p hp2
            intro tc htc
            exact extract_ids_isSome resp (respText resp) pr hpr tc
              (driverCalls_mem htc)

/-- Helper: synthetic ids of the text path, stated over the range of
discovery indices. -/
theorem enum_ids (l : List Cand) :
    (l.enum.map (fun p =>
        (⟨p.2.name, p.2.arguments, some (("text_tool_") ++ toString p.1)⟩ : ToolCall))).map
        ToolCall.id =
      (List.range l.length).map (fun i => some (("text_tool_") ++ toString i)) := by
  rw [List.map_map]
  have h1 : (ToolCall.id ∘ fun p : Nat × Cand =>
      (⟨p.2.name, p.2.arguments, some (("text_tool_") ++ toString p.1)⟩ : ToolCall)) =
      (fun i => some (("text_tool_") ++ toString i)) ∘ Prod.fst := rfl
  rw [h1, ← List.map_map, List.enum_map_fst]

/-- C2: every executed tool call in any driver run is answered by a
tool-role message whose `tool_call_id` equals the call's assigned id, and
the Call Extractor assigns exactly the provider-issued ids on the native
path and `text_tool_<k>` in discovery order on the text path. -/
theorem tool_msg_correlation :
    (∀ (provider : List Msg → Except Unit RespMsg) (exec : JVal → JVal → String)
        (N : Nat) (prompt : String),
        ∀ p ∈ (runMain provider exec N prompt).trace,
          p.2.role = ("tool") ∧ p.2.tool_call_id = p.1.id ∧ p.1.id.isSome) ∧
    (∀ (msg : RespMsg) (text : String) (pr : List ToolCall × String),
        extract_tool_calls msg text = .ok pr →
        (msg.tool_calls ≠ [] →
          pr.1.map ToolCall.id = msg.tool_calls.map (fun tc => some tc.id)) ∧
        (msg.tool_calls = [] →
          pr.1.map ToolCall.id =
            (List.range pr.1.length).map
              (fun i => some (("text_tool_") ++ toString i)))) := by
  constructor
  · intro provider exec N prompt p hp
    refine runLoop_trace provider exec N (initState prompt) ?_ p hp
    intro q hq
    exact absurd hq (List.not_mem_nil q)
  · intro msg text pr h
    constructor
    · intro hne
      revert h
      simp only [extract_tool_calls, hne, ne_eq, not_false_eq_true, if_true]
      cases hn : convNative msg.tool_calls with
      | error e => intro h; exact absurd h (by simp)
      | ok l =>
        intro h
        simp only [Except.ok.injEq] at h
        rw [← h]
        exact convNative_ids msg.tool_calls l hn
    · intro hemp
      by_cases ht : text = ""
      · have hx : extract_tool_calls msg text = .ok ([], text) := by
          simp [extract_tool_calls, hemp, ht]
        rw [hx] at h
        simp only [Except.ok.injEq] at h
        rw [← h]
        rfl
      · by_cases hd : detect_tool_calls_in_text text = []
        · have hx : extract_tool_calls msg text = .ok ([], text) := by
            simp [extract_tool_calls, hemp, ht, hd]
          rw [hx] at h
          simp only [Except.ok.injEq] at h
          rw [← h]
          rfl
        · have hx : extract_tool_calls msg text =
              .ok ((detect_tool_calls_in_text text).enum.map
                (fun p => (⟨p.2.name, p.2.arguments,
                  some (("text_tool_") ++ toString p.1)⟩ : ToolCall)),
                pyStrip ((detect_tool_calls_in_text text).foldl
                  (fun acc c => replaceAll acc (candDump c)) text)) := by
            simp [extract_tool_calls, hemp, ht, hd]
          rw [hx] at h
          simp only [Except.ok.injEq] at h
          rw [← h]
          simp only []
          rw [enum_ids]
          congr 2
          simp

/-- Witness for C2: a concrete trace pair of the demo run and a concrete
text-path extraction. -/
theorem tool_msg_correlation_witness :
    (demoPair.2.role = ("tool") ∧ demoPair.2.tool_call_id = demoPair.1.id ∧
      demoPair.1.id.isSome) ∧
    ([(⟨.str ("y"), .obj .nil, some ("text_tool_0")⟩ : ToolCall)].map ToolCall.id =
      (List.range 1).map (fun i => some (("text_tool_") ++ toString i))) :=
  ⟨tool_msg_correlation.1 demoProvider demoExec 2 ("sys") demoPair (by decide),
   by
    have h := (tool_msg_correlation.2 ⟨[], some mixedText⟩ mixedText
      ([⟨.str ("y"), .obj .nil, some ("text_tool_0")⟩],
        ("\x7b\"name\": \"x\", \"arguments\": oops\x7d and")) rfl).2 rfl
    simpa using h⟩

/-! Round-trip development, part 1: primitive token round-trips. -/

/-- Unfolding `Char.ofNat` under a validity assumption. -/
theorem charToNat_ofNat_valid {n : Nat} (h : Nat.isValidChar n) :
    (Char.ofNat n).toNat = n := by
  simp only [Char.ofNat, dif_pos h]
  rfl

/-- Every scalar value below the surrogate range round-trips. -/
theorem charToNat_ofNat_lt {n : Nat} (h : n < 55296) :
    (Char.ofNat n).toNat = n :=
  charToNat_ofNat_valid (Or.inl h)

/-- Character scalar values avoid the surrogate range. -/
theorem char_valid_nat (c : Char) :
    c.toNat < 55296 ∨ (57343 < c.toNat ∧ c.toNat < 1114112) := by
  rcases c.valid with h | ⟨h1, h2⟩
  · exact Or.inl h
  · exact Or.inr ⟨h1, h2⟩

/-- Every character of a rendered natural number is a decimal digit. -/
theorem natDigits_digits (n : Nat) :
    ∀ c ∈ natDigits n, ∃ d, d < 10 ∧ c = digitCh d := by
  induction n using Nat.strong_induction_on with
  | _ n ih =>
    intro c hc
    rw [natDigits] at hc
    split at hc
    · next h =>
      simp only [List.mem_singleton] at hc
      exact ⟨n, h, hc⟩
    · next h =>
      rcases List.mem_append.mp hc with h1 | h2
      · exact ih (n / 10) (Nat.div_lt_self (by omega) (by omega)) c h1
      · simp only [List.mem_singleton] at h2
        exact ⟨n % 10, by omega, h2⟩

/-- A rendered natural number is never empty. -/
theorem natDigits_ne_nil (n : Nat) : natDigits n ≠ [] := by
  rw [natDigits]
  split <;> simp

/-- A rendered positive number starts with a nonzero digit. -/
theorem natDigits_head (n : Nat) (hn : 1 ≤ n) :
    ∃ d ds, natDigits n = digitCh d :: ds ∧ 1 ≤ d ∧ d < 10 := by
  induction n using Nat.strong_induction_on with
  | _ n ih =>
    rw [natDigits]
    split
    · next h => exact ⟨n, [], rfl, hn, h⟩
    · next h =>
      obtain ⟨d, ds, hds, hd1, hd2⟩ :=
        ih (n / 10) (Nat.div_lt_self (by omega) (by omega)) (by omega)
      exact ⟨d, ds ++ [digitCh (n % 10)], by rw [hds]; rfl, hd1, hd2⟩

/-- Digit characters decode to their value. -/
theorem digitCh_toNat {d : Nat} (h : d < 10) : (digitCh d).toNat = 48 + d :=
  charToNat_ofNat_lt (by omega)

/-- Digit characters satisfy the digit test. -/
theorem isDig_digitCh {d : Nat} (h : d < 10) : isDig (digitCh d) = true := by
  interval_cases d <;> decide

/-- Rendering then folding the digits recovers the number. -/
theorem digitsToNat_natDigits (n : Nat) : digitsToNat (natDigits n) = n := by
  induction n using Nat.strong_induction_on with
  | _ n ih =>
    rw [natDigits]
    split
    · next h =>
      simp [digitsToNat, digitCh_toNat h]
    · next h =>
      have ihd := ih (n / 10) (Nat.div_lt_self (by omega) (by omega))
      simp only [digitsToNat, List.foldl_append, List.foldl_cons, List.foldl_nil]
      have hmod : (digitCh (n % 10)).toNat = 48 + n % 10 :=
        digitCh_toNat (by omega)
      rw [hmod]
      simp only [digitsToNat] at ihd
      rw [ihd]
      omega

/-- Digits followed by a boundary are taken whole by `takeWhile isDig`. -/
theorem takeWhile_digits_append (a b : List Char)
    (ha : ∀ c ∈ a, isDig c = true) (hb : b.takeWhile isDig = []) :
    (a ++ b).takeWhile isDig = a := by
  induction a with
  | nil => simpa using hb
  | cons c cs ihc =>
    simp [List.takeWhile_cons, ha c (by simp),
      ihc (fun x hx => ha x (List.mem_cons_of_mem _ hx))]

/-- Boundary text begins with a non-digit (or is empty). -/
theorem numBoundary_takeWhile {rest : List Char}
    (h : numBoundary rest = true) : rest.takeWhile isDig = [] := by
  cases rest with
  | nil => rfl
  | cons d ds =>
    simp only [numBoundary, Bool.and_eq_true, Bool.not_eq_true'] at h
    simp [List.takeWhile_cons, h.1.1.1]

/-- `parseNat` reads back a rendered natural number. -/
theorem parseNat_natDigits (n : Nat) (rest : List Char)
    (hb : numBoundary rest = true) :
    parseNat (natDigits n ++ rest) = some (n, rest) := by
  by_cases hn : n = 0
  · subst hn
    rw [natDigits]
    simp only [Nat.lt_irrefl, dif_pos (by omega : (0 : Nat) < 10)]
    show parseNat (digitCh 0 :: rest) = some (0, rest)
    have h0 : digitCh 0 = '0' := rfl
    rw [h0, parseNat.eq_def]
    simp only [if_pos rfl]
    cases rest with
    | nil => rfl
    | cons d ds =>
      simp only [numBoundary, Bool.and_eq_true, Bool.not_eq_true',
        decide_eq_true_eq] at hb
      have : (d = '.' || d = 'e' || d = 'E') = false := by
        simp [hb.1.2, hb.2, hb.1.1.2]
      simp [this]
  · obtain ⟨d, tl, hds, hd1, hd2⟩ := natDigits_head n (by omega)
    rw [hds, List.cons_append]
    have hall : ∀ c ∈ digitCh d :: tl, isDig c = true := by
      intro c hc
      rw [← hds] at hc
      obtain ⟨e, he, hce⟩ := natDigits_digits n c hc
      rw [hce]
      exact isDig_digitCh he
    have htake : (digitCh d :: (tl ++ rest)).takeWhile isDig = digitCh d :: tl := by
      have h2 := takeWhile_digits_append (digitCh d :: tl) rest hall
        (numBoundary_takeWhile hb)
      simp only [List.cons_append] at h2
      exact h2
    have hdrop : (digitCh d :: (tl ++ rest)).drop (tl.length + 1) = rest := by
      have h2 := List.drop_left (digitCh d :: tl) rest
      simp only [List.cons_append, List.length_cons] at h2
      exact h2
    have hDTN : digitsToNat (digitCh d :: tl) = n := by
      rw [← hds]
      exact digitsToNat_natDigits n
    have hne : ¬(digitCh d = '0') := by interval_cases d <;> decide
    have hdig : isDig (digitCh d) = true := isDig_digitCh hd2
    rw [parseNat.eq_def]
    simp only []
    rw [if_neg hne, if_pos hdig]
    simp only [htake, List.length_cons, hdrop]
    cases rest with
    | nil => simp [hDTN]
    | cons e es =>
      simp only [numBoundary, Bool.and_eq_true, Bool.not_eq_true',
        decide_eq_true_eq] at hb
      have h1 : (e = '.' || e = 'e' || e = 'E') = false := by
        simp [hb.1.2, hb.2, hb.1.1.2]
      simp [h1, hDTN]

/-- `parseNum` reads back a rendered integer. -/
theorem parseNum_intRepr (i : Int) (rest : List Char)
    (hb : numBoundary rest = true) :
    parseNum (intRepr i ++ rest) = some (i, rest) := by
  by_cases hi : i < 0
  · have hstep : parseNum ('-' :: (natDigits i.natAbs ++ rest)) =
        (parseNat (natDigits i.natAbs ++ rest)).map
          (fun p => (-(p.1 : Int), p.2)) := rfl
    rw [intRepr, if_pos hi, List.cons_append, hstep, parseNat_natDigits _ _ hb]
    simp only [Option.map_some']
    congr 2
    omega
  · rw [intRepr, if_neg hi]
    cases hl : natDigits i.toNat with
    | nil => exact absurd hl (natDigits_ne_nil _)
    | cons c cs =>
      have hcd : ∃ d, d < 10 ∧ c = digitCh d :=
        natDigits_digits i.toNat c (by rw [hl]; simp)
      obtain ⟨d, hd, hcd⟩ := hcd
      have hcm : (c = '-') = False := by
        simp only [eq_iff_iff, iff_false]
        rw [hcd]
        interval_cases d <;> decide
      rw [List.cons_append, parseNum.eq_def]
      simp only []
      simp only [hcm, if_false]
      rw [← List.cons_append, ← hl, parseNat_natDigits _ _ hb]
      simp only [Option.map_some']
      congr 2
      omega

/-- Hex digits decode to their value. -/
theorem hexVal_hexDigitCh {m : Nat} (h : m < 16) :
    hexVal (hexDigitCh m) = some m := by
  interval_cases m <;> decide

/-- `parse4Hex` reads back four rendered hex digits. -/
theorem parse4Hex_toHex4 (n : Nat) (h : n < 65536) (rest : List Char) :
    parse4Hex (toHex4 n ++ rest) = some (n, rest) := by
  have e1 := hexVal_hexDigitCh (show n / 4096 % 16 < 16 by omega)
  have e2 := hexVal_hexDigitCh (show n / 256 % 16 < 16 by omega)
  have e3 := hexVal_hexDigitCh (show n / 16 % 16 < 16 by omega)
  have e4 := hexVal_hexDigitCh (show n % 16 < 16 by omega)
  have hval : ((n / 4096 % 16 * 16 + n / 256 % 16) * 16 + n / 16 % 16) * 16 +
      n % 16 = n := by omega
  simp [toHex4, parse4Hex, e1, e2, e3, e4, hval]

/-- Unfolding one `\uXXXX` escape at the head of a string body. -/
theorem parseStrBody_u (fuel : Nat) (r2 : List Char) :
    parseStrBody (fuel + 1) (bslash :: 'u' :: r2) =
      (match parse4Hex r2 with
       | none => none
       | some (n, r3) =>
         if n < 55296 || 57344 ≤ n then
           (parseStrBody fuel r3).map (fun p => (Char.ofNat n :: p.1, p.2))
         else if n < 56320 then
           match r3 with
           | b1 :: u1 :: r5 =>
             if b1 = bslash && u1 = 'u' then
               match parse4Hex r5 with
               | some (m, r6) =>
                 if 56320 ≤ m && m < 57344 then
                   (parseStrBody fuel r6).map
                     (fun p =>
                       (Char.ofNat (65536 + (n - 55296) * 1024 + (m - 56320)) :: p.1,
                        p.2))
                 else none
               | none => none
             else none
           | _ => none
         else none) := rfl

set_option maxRecDepth 4000 in
/-- One decoding step undoes one character's escape. -/
theorem parseStrBody_step (c : Char) (s : List Char) (fuel : Nat) :
    parseStrBody (fuel + 1) (escChar c ++ s) =
      (parseStrBody fuel s).map (fun p => (c :: p.1, p.2)) := by
  unfold escChar
  split_ifs with h1 h2 h3 h4 h5 h6 h7 h8 h9
  · rw [h1]; rfl
  · rw [h2]; rfl
  · rw [h3]; rfl
  · rw [h4]; rfl
  · rw [h5]; rfl
  · have hc : Char.ofNat 8 = c := by rw [← h6]; exact Char.ofNat_toNat c
    rw [← hc]; rfl
  · have hc : Char.ofNat 12 = c := by rw [← h7]; exact Char.ofNat_toNat c
    rw [← hc]; rfl
  · simp only [Bool.and_eq_true, decide_eq_true_eq] at h8
    rw [List.cons_append, List.nil_append, parseStrBody.eq_def]
    simp only []
    rw [if_neg h1, if_neg h2, if_neg (by omega : ¬(c.toNat < 32))]
  · have hshape : (bslash :: 'u' :: toHex4 c.toNat) ++ s =
        bslash :: 'u' :: (toHex4 c.toNat ++ s) := rfl
    rw [hshape, parseStrBody_u, parse4Hex_toHex4 _ (by omega) s]
    have hcond : (c.toNat < 55296 || 57344 ≤ c.toNat) = true := by
      rcases char_valid_nat c with h | ⟨ha, hb2⟩
      · simp [h]
      · simp only [Bool.or_eq_true, decide_eq_true_eq]
        omega
    simp only [hcond, if_true]
    rw [Char.ofNat_toNat]
  · have hv : 57343 < c.toNat ∧ c.toNat < 1114112 := by
      rcases char_valid_nat c with h | h
      · omega
      · exact h
    have hshape : ((bslash :: 'u' :: toHex4 (55296 + (c.toNat - 65536) / 1024)) ++
          (bslash :: 'u' :: toHex4 (56320 + (c.toNat - 65536) % 1024))) ++ s =
        bslash :: 'u' :: (toHex4 (55296 + (c.toNat - 65536) / 1024) ++
          (bslash :: 'u' :: (toHex4 (56320 + (c.toNat - 65536) % 1024) ++ s))) := by
      simp [List.append_assoc]
    rw [hshape, parseStrBody_u,
      parse4Hex_toHex4 _ (by omega) _]
    split
    · rename_i heq; cases heq
    · rename_i n r3 heq
      injection heq with h0
      injection h0 with hn hr3
      have hc1 : ¬((n < 55296 || 57344 ≤ n) = true) := by
        simp only [Bool.or_eq_true, decide_eq_true_eq]
        omega
      rw [if_neg hc1, if_pos (by omega : n < 56320), ← hr3]
      split
      · rename_i b1 u1 r5 heq2
        injection heq2 with hb1 h0b
        injection h0b with hu1 hr5
        subst hb1
        subst hu1
        subst hr5
        have hbu : (decide (bslash = bslash) && decide ('u' = 'u')) = true := by
          decide
        rw [if_pos hbu, parse4Hex_toHex4 _ (by omega) s]
        split
        · rename_i m r6 heq3
          rw [Option.some.injEq, Prod.mk.injEq] at heq3
          obtain ⟨hm, hr6⟩ := heq3
          subst hr6
          rw [if_pos (by simp only [Bool.and_eq_true, decide_eq_true_eq]; omega)]
          have harg : 65536 + (n - 55296) * 1024 + (m - 56320) = c.toNat := by
            omega
          rw [harg, Char.ofNat_toNat]
        · rename_i heq3; cases heq3
      · rename_i hne
        exact absurd rfl (hne bslash 'u' (toHex4 (56320 + (c.toNat - 65536) % 1024) ++ s))
/-- Escaping a character never produces the empty string. -/
theorem escChar_length_pos (c : Char) : 1 ≤ (escChar c).length := by
  unfold escChar
  split_ifs <;> simp

/-- The escaped body is at least as long as the source string. -/
theorem escBody_length_ge (cs : List Char) :
    cs.length ≤ ((cs.map escChar).flatten).length := by
  induction cs with
  | nil => simp
  | cons c cs ih =>
    simp only [List.map_cons, List.flatten_cons, List.length_cons,
      List.length_append]
    have := escChar_length_pos c
    omega

/-- Decoding undoes escaping of a whole string body. -/
theorem parseStrBody_esc (cs : List Char) : ∀ (fuel : Nat) (rest : List Char),
    cs.length + 1 ≤ fuel →
    parseStrBody fuel ((cs.map escChar).flatten ++ (dquote :: rest)) =
      some (cs, rest) := by
  induction cs with
  | nil =>
    intro fuel rest h
    cases fuel with
    | zero => omega
    | succ f =>
      simp only [List.map_nil, List.flatten_nil, List.nil_append]
      rfl
  | cons c cs ih =>
    intro fuel rest h
    cases fuel with
    | zero => omega
    | succ f =>
      have hshape : (((c :: cs).map escChar).flatten ++ (dquote :: rest)) =
          escChar c ++ ((cs.map escChar).flatten ++ (dquote :: rest)) := by
        simp [List.map_cons, List.flatten_cons, List.append_assoc]
      have h2 : cs.length + 1 ≤ f := by
        simp only [List.length_cons] at h
        omega
      rw [hshape, parseStrBody_step, ih f rest h2]
      rfl

/-- The first character of a serialized value is not whitespace and not a
closing delimiter. -/
theorem dumpsV_head (v : JVal) :
    ∃ c cs, dumpsV v = c :: cs ∧ isJsonWs c = false ∧ ¬(c = ']') ∧
      ¬(c = rbrace) := by
  cases v with
  | nullv => refine ⟨'n', _, rfl, ?_, ?_, ?_⟩ <;> decide
  | boolv b =>
    cases b with
    | true => refine ⟨'t', _, rfl, ?_, ?_, ?_⟩ <;> decide
    | false => refine ⟨'f', _, rfl, ?_, ?_, ?_⟩ <;> decide
  | num n =>
    show ∃ c cs, intRepr n = c :: cs ∧ _
    rw [intRepr]
    split_ifs with hneg
    · exact ⟨'-', _, rfl, by decide, by decide, by decide⟩
    · cases hl : natDigits n.toNat with
      | nil => exact absurd hl (natDigits_ne_nil _)
      | cons c cs =>
        obtain ⟨d, hd, hcd⟩ := natDigits_digits n.toNat c (by rw [hl]; simp)
        subst hcd
        refine ⟨digitCh d, cs, rfl, ?_, ?_, ?_⟩ <;> interval_cases d <;> decide
  | str s => refine ⟨dquote, _, rfl, ?_, ?_, ?_⟩ <;> decide
  | arr xs =>
    cases xs with
    | nil => refine ⟨'[', _, rfl, ?_, ?_, ?_⟩ <;> decide
    | cons x xs => refine ⟨'[', _, rfl, ?_, ?_, ?_⟩ <;> decide
  | obj o =>
    cases o with
    | nil => refine ⟨lbrace, _, rfl, ?_, ?_, ?_⟩ <;> decide
    | cons k v r => refine ⟨lbrace, _, rfl, ?_, ?_, ?_⟩ <;> decide

/-- Whitespace skipping does not touch a serialized value. -/
theorem skipWs_dumpsV (v : JVal) (r : List Char) :
    skipWs (dumpsV v ++ r) = dumpsV v ++ r := by
  obtain ⟨c, cs, hd, hws, -, -⟩ := dumpsV_head v
  rw [hd, List.cons_append]
  exact List.dropWhile_cons_of_neg (by simp [hws])

/-- A serialized number may be followed by remaining members. -/
theorem numBoundary_dumpsObj (o : JObj) (r : List Char) :
    numBoundary (dumpsObj o ++ (rbrace :: r)) = true := by
  cases o with
  | nil => rfl
  | cons k v rest => rfl

/-- A serialized number may be followed by remaining elements. -/
theorem numBoundary_dumpsArr (xs : JArr) (r : List Char) :
    numBoundary (dumpsArr xs ++ (']' :: r)) = true := by
  cases xs with
  | nil => rfl
  | cons x rest => rfl

/-- Member lookup distributes over member-list concatenation. -/
theorem jlookup_jappend (kk : String) : ∀ (a b : JObj),
    jlookup kk (jappend a b) =
      match jlookup kk a with
      | some v => some v
      | none => jlookup kk b
  | .nil, b => rfl
  | .cons k v r, b => by
    by_cases h : k = kk
    · simp [jappend, jlookup, h]
    · simp [jappend, jlookup, h, jlookup_jappend kk r b]

/-- Inserting an absent key appends it at the end. -/
theorem jinsert_absent (k : String) (v : JVal) : ∀ (acc : JObj),
    jlookup k acc = none →
    jinsert k v acc = jappend acc (.cons k v .nil)
  | .nil, _ => rfl
  | .cons k2 v2 r, h => by
    rw [jlookup] at h
    by_cases hk : k2 = k
    · rw [if_pos hk] at h
      exact absurd h (by simp)
    · rw [if_neg hk] at h
      rw [jinsert, if_neg hk, jappend, jinsert_absent k v r h]

/-- Appending an empty member list on the right is the identity. -/
theorem jappend_nil : ∀ (a : JObj), jappend a .nil = a
  | .nil => rfl
  | .cons k v r => by rw [jappend, jappend_nil r]

/-- Member-list concatenation is associative. -/
theorem jappend_assoc : ∀ (a b c : JObj),
    jappend (jappend a b) c = jappend a (jappend b c)
  | .nil, _, _ => rfl
  | .cons k v r, b, c => by rw [jappend, jappend, jappend, jappend_assoc r b c]

/-- Folding distinct fresh members onto an accumulator appends them. -/
theorem objOfPairs_go : ∀ (o : JObj) (acc : JObj),
    (objKeys o).Nodup → (∀ kk ∈ objKeys o, jlookup kk acc = none) →
    (toPairs o).foldl (fun a kv => jinsert kv.1 kv.2 a) acc = jappend acc o
  | .nil, acc, _, _ => by
    rw [toPairs]
    simp [jappend_nil]
  | .cons k v r, acc, hnd, habs => by
    rw [toPairs, List.foldl_cons]
    rw [objKeys] at hnd habs
    have hk : jlookup k acc = none := habs k (by simp)
    rw [jinsert_absent k v acc hk]
    have hnd2 : (objKeys r).Nodup := (List.nodup_cons.mp hnd).2
    have hkr : k ∉ objKeys r := (List.nodup_cons.mp hnd).1
    rw [objOfPairs_go r (jappend acc (.cons k v .nil)) hnd2 ?_, jappend_assoc]
    · rfl
    · intro kk hkk
      rw [jlookup_jappend]
      rw [habs kk (by simp [hkk])]
      have hne : ¬(k = kk) := by
        intro he
        exact hkr (he ▸ hkk)
      simp [jlookup, hne]

/-- Rebuilding a dict from the decoded pairs of a well-formed object is the
identity. -/
theorem objOfPairs_toPairs (o : JObj) (h : (objKeys o).Nodup) :
    objOfPairs (toPairs o) = o := by
  rw [objOfPairs, objOfPairs_go o .nil h (fun kk _ => rfl)]
  rfl

/-- The number rendering is nonempty. -/
theorem intRepr_ne_nil (n : Int) : intRepr n ≠ [] := by
  rw [intRepr]
  split_ifs with h
  · simp
  · exact natDigits_ne_nil _

mutual

/-- The parser budget of a value is within three times its serialized length. -/
theorem needV_le : ∀ (v : JVal), needV v ≤ 3 * (dumpsV v).length
  | .nullv => by simp [needV, dumpsV]
  | .boolv b => by cases b <;> simp [needV, dumpsV]
  | .num n => by
    have h : intRepr n ≠ [] := intRepr_ne_nil n
    have h2 : 1 ≤ (intRepr n).length := by
      cases hl : intRepr n with
      | nil => exact absurd hl h
      | cons c cs => simp
    simp only [needV, dumpsV]
    omega
  | .str s => by
    simp only [needV, dumpsV, escString, List.length_cons, List.length_append]
    omega
  | .arr .nil => by simp [needV, dumpsV]
  | .arr (.cons x xs) => by
    have h1 := needV_le x
    have h2 := needE_le xs
    simp only [needV, needE, dumpsV, List.length_cons, List.length_append,
      List.length_singleton]
    omega
  | .obj .nil => by simp [needV, dumpsV]
  | .obj (.cons k v r) => by
    have h1 := needV_le v
    have h2 := needM_le r
    simp only [needV, needM, dumpsV, List.length_cons, List.length_append,
      List.length_singleton]
    omega

/-- Element-list version of `needV_le`. -/
theorem needE_le : ∀ (xs : JArr), needE xs ≤ 3 * (dumpsArr xs).length
  | .nil => by simp [needE, dumpsArr]
  | .cons x xs => by
    have h1 := needV_le x
    have h2 := needE_le xs
    simp only [needE, dumpsArr, List.length_cons, List.length_append]
    omega

/-- Member-list version of `needV_le`. -/
theorem needM_le : ∀ (o : JObj), needM o ≤ 3 * (dumpsObj o).length
  | .nil => by simp [needM, dumpsObj]
  | .cons k v r => by
    have h1 := needV_le v
    have h2 := needM_le r
    simp only [needM, dumpsObj, List.length_cons, List.length_append]
    omega

end

/-- A rendered number starts with a character no other `parseVal` branch
claims. -/
theorem intRepr_head (n : Int) :
    ∃ c cs, intRepr n = c :: cs ∧ ¬(c = dquote) ∧ ¬(c = lbrace) ∧
      ¬(c = '[') ∧ ¬(c = 't') ∧ ¬(c = 'f') ∧ ¬(c = 'n') := by
  rw [intRepr]
  split_ifs with hneg
  · exact ⟨'-', _, rfl, by decide, by decide, by decide, by decide, by decide,
      by decide⟩
  · cases hl : natDigits n.toNat with
    | nil => exact absurd hl (natDigits_ne_nil _)
    | cons c cs =>
      obtain ⟨d, hd, hcd⟩ := natDigits_digits n.toNat c (by rw [hl]; simp)
      subst hcd
      refine ⟨digitCh d, cs, rfl, ?_, ?_, ?_, ?_, ?_, ?_⟩ <;>
        interval_cases d <;> decide

/-- `expectCh` accepts its character. -/
theorem expectCh_pos (t : Char) (r : List Char) : expectCh t (t :: r) = some r := by
  simp [expectCh]

/-- Whitespace skipping stops at a non-whitespace head. -/
theorem skipWs_cons_nonws (c : Char) (X : List Char) (h : isJsonWs c = false) :
    skipWs (c :: X) = c :: X :=
  List.dropWhile_cons_of_neg (by simp [h])

/-- Whitespace skipping passes a whitespace head. -/
theorem skipWs_cons_ws (c : Char) (X : List Char) (h : isJsonWs c = true) :
    skipWs (c :: X) = skipWs X :=
  List.dropWhile_cons_of_pos (by simp [h])

/-- A serialized string followed by anything, in head-normal shape. -/
theorem escString_cons (s : String) (Y : List Char) :
    escString s ++ Y =
      dquote :: ((s.data.map escChar).flatten ++ (dquote :: Y)) := by
  simp [escString, List.cons_append, List.append_assoc]

/-- Whitespace skipping does not touch a serialized string. -/
theorem skipWs_escString (s : String) (Y : List Char) :
    skipWs (escString s ++ Y) = escString s ++ Y :=
  skipWs_dumpsV (.str s) Y

/-- Unfolding `parseVal` at an opening quote. -/
theorem parseVal_str (f : Nat) (X : List Char) :
    parseVal (f + 1) (dquote :: X) =
      (parseStrBody (X.length + 1) X).bind
        (fun p => some (.str ⟨p.1⟩, p.2)) := rfl

/-- Unfolding `parseVal` at an opening brace. -/
theorem parseVal_obj (f : Nat) (X : List Char) :
    parseVal (f + 1) (lbrace :: X) =
      (parseObjBody f (skipWs X)).bind (fun p => some (.obj p.1, p.2)) := rfl

/-- Unfolding `parseVal` at an opening bracket. -/
theorem parseVal_arr (f : Nat) (X : List Char) :
    parseVal (f + 1) ('[' :: X) =
      (parseArrBody f (skipWs X)).bind (fun p => some (.arr p.1, p.2)) := rfl

/-- Unfolding `parseVal` at a head claimed by no other branch: the number
fallback. -/
theorem parseVal_token (f : Nat) (c : Char) (cs : List Char)
    (h1 : ¬(c = dquote)) (h2 : ¬(c = lbrace)) (h3 : ¬(c = '['))
    (h4 : ¬(c = 't')) (h5 : ¬(c = 'f')) (h6 : ¬(c = 'n')) :
    parseVal (f + 1) (c :: cs) =
      (parseNum (c :: cs)).bind (fun p => some (.num p.1, p.2)) := by
  rw [parseVal.eq_def]
  simp only []
  rw [if_neg h1, if_neg h2, if_neg h3, if_neg h4, if_neg h5, if_neg h6]

/-- Unfolding `parseObjBody` at a non-closing head. -/
theorem parseObjBody_cons (g : Nat) (c : Char) (cs : List Char)
    (h : ¬(c = rbrace)) :
    parseObjBody (g + 1) (c :: cs) =
      (parseMembers g (c :: cs)).bind (fun p => some (objOfPairs p.1, p.2)) := by
  rw [parseObjBody.eq_def]
  simp only []
  rw [if_neg h]

/-- Unfolding `parseArrBody` at a non-closing head. -/
theorem parseArrBody_cons (g : Nat) (c : Char) (cs : List Char)
    (h : ¬(c = ']')) :
    parseArrBody (g + 1) (c :: cs) =
      (parseElems g (c :: cs)).bind (fun p => some (p.1, p.2)) := by
  rw [parseArrBody.eq_def]
  simp only []
  rw [if_neg h]

/-- Unfolding `parseMembers` at an opening quote. -/
theorem parseMembers_str (g : Nat) (X : List Char) :
    parseMembers (g + 1) (dquote :: X) =
      (parseStrBody (X.length + 1) X).bind (fun pk =>
        (expectCh ':' (skipWs pk.2)).bind (fun r2 =>
          (parseVal g (skipWs r2)).bind (fun pv =>
            ((expectCh ',' (skipWs pv.2)).bind (fun r4 =>
              (parseMembers g (skipWs r4)).bind (fun pm =>
                some (((⟨pk.1⟩ : String), pv.1) :: pm.1, pm.2)))) <|>
            ((expectCh rbrace (skipWs pv.2)).bind (fun r4 =>
              some ([((⟨pk.1⟩ : String), pv.1)], r4)))))) := rfl

/-- Unfolding `parseElems`. -/
theorem parseElems_succ (g : Nat) (s : List Char) :
    parseElems (g + 1) s =
      (parseVal g s).bind (fun p =>
        ((expectCh ',' (skipWs p.2)).bind (fun r2 =>
          (parseElems g (skipWs r2)).bind
            (fun q => some (.cons p.1 q.1, q.2)))) <|>
        ((expectCh ']' (skipWs p.2)).bind
          (fun r2 => some (.cons p.1 .nil, r2)))) := rfl

mutual

/-- The parser reads back one serialized well-formed value. -/
theorem parseV_dumps (fuel : Nat) (v : JVal) (rest : List Char)
    (hw : wfV v = true) (hne : needV v ≤ fuel) (hb : numBoundary rest = true) :
    parseVal fuel (dumpsV v ++ rest) = some (v, rest) := by
  cases v with
  | nullv =>
    cases fuel with
    | zero => simp [needV] at hne
    | succ f => rfl
  | boolv b =>
    cases fuel with
    | zero => cases b <;> simp [needV] at hne
    | succ f => cases b <;> rfl
  | num n =>
    cases fuel with
    | zero => simp [needV] at hne
    | succ f =>
      obtain ⟨c, cs, hic, h1, h2, h3, h4, h5, h6⟩ := intRepr_head n
      have hd : dumpsV (.num n) = intRepr n := rfl
      rw [hd, hic, List.cons_append,
        parseVal_token f c (cs ++ rest) h1 h2 h3 h4 h5 h6,
        ← List.cons_append, ← hic, parseNum_intRepr n rest hb]
      rfl
  | str s =>
    cases fuel with
    | zero => simp [needV] at hne
    | succ f =>
      have hshape : dumpsV (.str s) ++ rest =
          dquote :: ((s.data.map escChar).flatten ++ (dquote :: rest)) :=
        escString_cons s rest
      rw [hshape, parseVal_str]
      have hle : s.data.length + 1 ≤
          ((s.data.map escChar).flatten ++ (dquote :: rest)).length + 1 := by
        have h2 := escBody_length_ge s.data
        simp only [List.length_append, List.length_cons]
        omega
      rw [parseStrBody_esc s.data _ rest hle]
      rfl
  | arr xs =>
    cases xs with
    | nil =>
      cases fuel with
      | zero => simp [needV] at hne
      | succ f =>
        cases f with
        | zero => simp [needV] at hne
        | succ g => rfl
    | cons x xs =>
      cases fuel with
      | zero => simp [needV] at hne
      | succ f =>
        cases f with
        | zero => simp only [needV, needE] at hne; omega
        | succ g =>
          have hsh : dumpsV (.arr (.cons x xs)) ++ rest =
              '[' :: (dumpsV x ++ (dumpsArr xs ++ (']' :: rest))) := by
            show ('[' :: (dumpsV x ++ dumpsArr xs ++ [']'])) ++ rest = _
            simp [List.cons_append, List.append_assoc]
          rw [hsh, parseVal_arr,
            skipWs_dumpsV x (dumpsArr xs ++ (']' :: rest))]
          obtain ⟨c, cs, hdx, hws, hnb, hnr⟩ := dumpsV_head x
          rw [hdx, List.cons_append, parseArrBody_cons g c _ hnb,
            ← List.cons_append, ← hdx]
          simp only [wfV, wfA, Bool.and_eq_true] at hw
          have hneE : needE (.cons x xs) ≤ g := by
            simp only [needV] at hne
            omega
          rw [parseE_dumps g x xs rest hw.1 hw.2 hneE]
          rfl
  | obj o =>
    cases o with
    | nil =>
      cases fuel with
      | zero => simp [needV] at hne
      | succ f =>
        cases f with
        | zero => simp [needV] at hne
        | succ g => rfl
    | cons k v o2 =>
      cases fuel with
      | zero => simp [needV] at hne
      | succ f =>
        cases f with
        | zero => simp only [needV, needM] at hne; omega
        | succ g =>
          have hsh : dumpsV (.obj (.cons k v o2)) ++ rest =
              lbrace :: (escString k ++
                (':' :: (' ' :: (dumpsV v ++
                  (dumpsObj o2 ++ (rbrace :: rest)))))) := by
            show (lbrace :: (escString k ++
                ':' :: ' ' :: dumpsV v ++ dumpsObj o2 ++ [rbrace])) ++ rest = _
            simp [List.cons_append, List.append_assoc]
          rw [hsh, parseVal_obj,
            skipWs_escString k
              (':' :: (' ' :: (dumpsV v ++ (dumpsObj o2 ++ (rbrace :: rest))))),
            escString_cons k
              (':' :: (' ' :: (dumpsV v ++ (dumpsObj o2 ++ (rbrace :: rest))))),
            parseObjBody_cons g dquote _ (by decide),
            ← escString_cons k
              (':' :: (' ' :: (dumpsV v ++ (dumpsObj o2 ++ (rbrace :: rest)))))]
          simp only [wfV, wfO, Bool.and_eq_true, decide_eq_true_eq] at hw
          have hneM : needM (.cons k v o2) ≤ g := by
            simp only [needV] at hne
            omega
          rw [parseM_dumps g k v o2 rest hw.2.1 hw.2.2 hneM]
          simp only [Option.some_bind]
          rw [objOfPairs_toPairs (.cons k v o2) hw.1]
termination_by fuel

/-- The parser reads back serialized array elements up to the closing
bracket. -/
theorem parseE_dumps (fuel : Nat) (x : JVal) (xs : JArr) (rest : List Char)
    (hwx : wfV x = true) (hwxs : wfA xs = true)
    (hne : needE (.cons x xs) ≤ fuel) :
    parseElems fuel (dumpsV x ++ (dumpsArr xs ++ (']' :: rest))) =
      some (.cons x xs, rest) := by
  cases fuel with
  | zero => simp [needE] at hne
  | succ g =>
    rw [parseElems_succ]
    have hnex : needV x ≤ g := by
      simp only [needE] at hne
      omega
    rw [parseV_dumps g x (dumpsArr xs ++ (']' :: rest)) hwx hnex
      (numBoundary_dumpsArr xs rest)]
    simp only [Option.some_bind]
    cases xs with
    | nil => rfl
    | cons y ys =>
      have hda : dumpsArr (.cons y ys) ++ (']' :: rest) =
          ',' :: (' ' :: (dumpsV y ++ (dumpsArr ys ++ (']' :: rest)))) := by
        show (',' :: ' ' :: dumpsV y ++ dumpsArr ys) ++ (']' :: rest) = _
        simp [List.cons_append, List.append_assoc]
      rw [hda, skipWs_cons_nonws ',' _ (by decide), expectCh_pos]
      simp only [Option.some_bind]
      rw [skipWs_cons_ws ' ' _ (by decide),
        skipWs_dumpsV y (dumpsArr ys ++ (']' :: rest))]
      simp only [wfA, Bool.and_eq_true] at hwxs
      have hneY : needE (.cons y ys) ≤ g := by
        simp only [needE] at hne ⊢
        omega
      rw [parseE_dumps g y ys rest hwxs.1 hwxs.2 hneY]
      rfl
termination_by fuel

/-- The parser reads back serialized object members up to the closing
brace. -/
theorem parseM_dumps (fuel : Nat) (k : String) (v : JVal) (o : JObj)
    (rest : List Char) (hwv : wfV v = true) (hwo : wfO o = true)
    (hne : needM (.cons k v o) ≤ fuel) :
    parseMembers fuel
      (escString k ++
        (':' :: (' ' :: (dumpsV v ++ (dumpsObj o ++ (rbrace :: rest)))))) =
      some (toPairs (.cons k v o), rest) := by
  cases fuel with
  | zero => simp [needM] at hne
  | succ g =>
    rw [escString_cons k
      (':' :: (' ' :: (dumpsV v ++ (dumpsObj o ++ (rbrace :: rest))))),
      parseMembers_str]
    have hle : k.data.length + 1 ≤
        ((k.data.map escChar).flatten ++
          (dquote :: (':' :: (' ' :: (dumpsV v ++
            (dumpsObj o ++ (rbrace :: rest))))))).length + 1 := by
      have h2 := escBody_length_ge k.data
      simp only [List.length_append, List.length_cons]
      omega
    rw [parseStrBody_esc k.data _ _ hle]
    simp only [Option.some_bind]
    rw [skipWs_cons_nonws ':' _ (by decide), expectCh_pos]
    simp only [Option.some_bind]
    rw [skipWs_cons_ws ' ' _ (by decide),
      skipWs_dumpsV v (dumpsObj o ++ (rbrace :: rest))]
    have hnev : needV v ≤ g := by
      simp only [needM] at hne
      omega
    rw [parseV_dumps g v (dumpsObj o ++ (rbrace :: rest)) hwv hnev
      (numBoundary_dumpsObj o rest)]
    simp only [Option.some_bind]
    cases o with
    | nil => rfl
    | cons k2 v2 o2 =>
      have hdo : dumpsObj (.cons k2 v2 o2) ++ (rbrace :: rest) =
          ',' :: (' ' :: (escString k2 ++
            (':' :: (' ' :: (dumpsV v2 ++
              (dumpsObj o2 ++ (rbrace :: rest))))))) := by
        show (',' :: ' ' :: escString k2 ++
            ':' :: ' ' :: dumpsV v2 ++ dumpsObj o2) ++ (rbrace :: rest) = _
        simp [List.cons_append, List.append_assoc]
      rw [hdo, skipWs_cons_nonws ',' _ (by decide), expectCh_pos]
      simp only [Option.some_bind]
      rw [skipWs_cons_ws ' ' _ (by decide),
        skipWs_escString k2
          (':' :: (' ' :: (dumpsV v2 ++ (dumpsObj o2 ++ (rbrace :: rest)))))]
      simp only [wfO, Bool.and_eq_true] at hwo
      have hne2 : needM (.cons k2 v2 o2) ≤ g := by
        simp only [needM] at hne ⊢
        omega
      rw [parseM_dumps g k2 v2 o2 rest hwo.1 hwo.2 hne2]
      simp only [Option.some_bind, Option.some_orElse]
      rfl
termination_by fuel

end

/-- `json.loads` undoes `json.dumps` on well-formed values: the model's
round-trip at the serialization layer. -/
theorem loads_dumps (v : JVal) (hw : wfV v = true) : loads (dumps v) = some v := by
  have hskip : skipWs (dumpsV v) = dumpsV v := by
    have h := skipWs_dumpsV v []
    simpa using h
  have hparse : parseVal (3 * (dumpsV v).length + 1) (dumpsV v) = some (v, []) := by
    have h2 := parseV_dumps (3 * (dumpsV v).length + 1) v [] hw
      (by have := needV_le v; omega) rfl
    simpa using h2
  show (match parseVal (3 * (skipWs (dumpsV v)).length + 1) (skipWs (dumpsV v)) with
    | some (v, r) => if skipWs r = [] then some v else none
    | none => none) = some v
  rw [hskip, hparse]
  rfl

/-- Depth sum of a cons. -/
theorem braceSum_cons (c : Char) (l : List Char) :
    braceSum (c :: l) = braceDelta c + braceSum l := by
  simp [braceSum]

/-- Depth sum of a concatenation. -/
theorem braceSum_append (a b : List Char) :
    braceSum (a ++ b) = braceSum a + braceSum b := by
  simp [braceSum]

/-- Prefix nonnegativity is preserved by concatenation. -/
theorem nonnegPre_append (a b : List Char) (ha : nonnegPre a)
    (hb : nonnegPre b) : nonnegPre (a ++ b) := by
  intro k
  rw [List.take_append_eq_append_take, braceSum_append]
  have h1 := ha k
  have h2 := hb (k - a.length)
  omega

/-- Prefix nonnegativity is preserved by a depth-neutral head. -/
theorem nonnegPre_cons0 (c : Char) (l : List Char) (hc : braceDelta c = 0)
    (hl : nonnegPre l) : nonnegPre (c :: l) := by
  intro k
  cases k with
  | zero => simp [braceSum]
  | succ k =>
    rw [List.take_succ_cons, braceSum_cons, hc]
    have := hl k
    omega

/-- A list without brace characters has all-zero prefix depth sums. -/
theorem all_nonBrace_sum (l : List Char) (h : l.all nonBrace = true) :
    ∀ k, braceSum (l.take k) = 0 := by
  induction l with
  | nil => intro k; simp [braceSum]
  | cons c cs ih =>
    simp only [List.all_cons, Bool.and_eq_true] at h
    intro k
    cases k with
    | zero => simp [braceSum]
    | succ k =>
      rw [List.take_succ_cons, braceSum_cons]
      have hd : braceDelta c = 0 := by
        simp only [nonBrace, Bool.and_eq_true, decide_eq_true_eq] at h
        simp [braceDelta, h.1.1, h.1.2]
      rw [hd, ih h.2 k]
      simp

/-- A list without brace characters is depth-balanced. -/
theorem all_nonBrace_bal (l : List Char) (h : l.all nonBrace = true) :
    braceSum l = 0 ∧ nonnegPre l := by
  refine ⟨?_, ?_⟩
  · have h2 := all_nonBrace_sum l h l.length
    rwa [List.take_length] at h2
  · intro k
    rw [all_nonBrace_sum l h k]

/-- Rendered hex digits are not braces. -/
theorem nonBrace_hexDigitCh (m : Nat) (h : m < 16) :
    nonBrace (hexDigitCh m) = true := by
  interval_cases m <;> decide

/-- Rendered decimal digits are not braces. -/
theorem nonBrace_digitCh (d : Nat) (h : d < 10) :
    nonBrace (digitCh d) = true := by
  interval_cases d <;> decide

/-- Escaping a non-brace character yields no brace characters. -/
theorem escChar_nonBrace (c : Char) (h : nonBrace c = true) :
    (escChar c).all nonBrace = true := by
  rw [escChar]
  split_ifs with h1 h2 h3 h4 h5 h6 h7 h8 h9
  · decide
  · decide
  · decide
  · decide
  · decide
  · decide
  · decide
  · simp [h]
  · have e1 := nonBrace_hexDigitCh (c.toNat / 4096 % 16) (by omega)
    have e2 := nonBrace_hexDigitCh (c.toNat / 256 % 16) (by omega)
    have e3 := nonBrace_hexDigitCh (c.toNat / 16 % 16) (by omega)
    have e4 := nonBrace_hexDigitCh (c.toNat % 16) (by omega)
    have hbs : nonBrace bslash = true := by decide
    have hu : nonBrace 'u' = true := by decide
    simp [toHex4, e1, e2, e3, e4, hbs, hu]
  · have hval := char_valid_nat c
    have hlt : c.toNat - 65536 < 1048576 := by omega
    have e1 := nonBrace_hexDigitCh ((55296 + (c.toNat - 65536) / 1024) / 4096 % 16) (by omega)
    have e2 := nonBrace_hexDigitCh ((55296 + (c.toNat - 65536) / 1024) / 256 % 16) (by omega)
    have e3 := nonBrace_hexDigitCh ((55296 + (c.toNat - 65536) / 1024) / 16 % 16) (by omega)
    have e4 := nonBrace_hexDigitCh ((55296 + (c.toNat - 65536) / 1024) % 16) (by omega)
    have f1 := nonBrace_hexDigitCh ((56320 + (c.toNat - 65536) % 1024) / 4096 % 16) (by omega)
    have f2 := nonBrace_hexDigitCh ((56320 + (c.toNat - 65536) % 1024) / 256 % 16) (by omega)
    have f3 := nonBrace_hexDigitCh ((56320 + (c.toNat - 65536) % 1024) / 16 % 16) (by omega)
    have f4 := nonBrace_hexDigitCh ((56320 + (c.toNat - 65536) % 1024) % 16) (by omega)
    have hbs : nonBrace bslash = true := by decide
    have hu : nonBrace 'u' = true := by decide
    simp [toHex4, e1, e2, e3, e4, f1, f2, f3, f4, hbs, hu]

/-- Escaping a brace-free body yields no brace characters. -/
theorem escBody_nonBrace (l : List Char) (h : l.all nonBrace = true) :
    ((l.map escChar).flatten).all nonBrace = true := by
  induction l with
  | nil => decide
  | cons c cs ih =>
    simp only [List.all_cons, Bool.and_eq_true] at h
    simp only [List.map_cons, List.flatten_cons, List.all_append,
      Bool.and_eq_true]
    exact ⟨escChar_nonBrace c h.1, ih h.2⟩

/-- Serializing a brace-free string yields no brace characters. -/
theorem escString_nonBrace (s : String) (h : s.data.all nonBrace = true) :
    (escString s).all nonBrace = true := by
  have h1 : nonBrace dquote = true := by decide
  simp [escString, List.all_cons, List.all_append, escBody_nonBrace s.data h, h1]

/-- Rendered integers contain no brace characters. -/
theorem intRepr_nonBrace (n : Int) : (intRepr n).all nonBrace = true := by
  have hnat : ∀ (m : Nat), (natDigits m).all nonBrace = true := by
    intro m
    rw [List.all_eq_true]
    intro c hc
    obtain ⟨d, hd, hcd⟩ := natDigits_digits m c hc
    rw [hcd]
    exact nonBrace_digitCh d hd
  rw [intRepr]
  split_ifs with h
  · simp only [List.all_cons, Bool.and_eq_true]
    exact ⟨by decide, hnat _⟩
  · exact hnat _

/-- A balanced nonnegative interior wrapped in braces has nonnegative
prefixes. -/
theorem nonnegPre_obj (a : List Char) (ha : nonnegPre a)
    (_hs : braceSum a = 0) : nonnegPre (lbrace :: (a ++ [rbrace])) := by
  intro k
  cases k with
  | zero => simp [braceSum]
  | succ j =>
    rw [List.take_succ_cons, braceSum_cons,
      (by decide : braceDelta lbrace = 1),
      List.take_append_eq_append_take, braceSum_append]
    have h1 := ha j
    have h2 : -1 ≤ braceSum ([rbrace].take (j - a.length)) := by
      rcases hj : j - a.length with _ | m
      · decide
      · rw [List.take_of_length_le (by simp)]
        decide
    omega

mutual

/-- A serialized brace-free value is depth-balanced with nonnegative
prefixes. -/
theorem nbBal_V : ∀ (v : JVal), nbV v = true →
    braceSum (dumpsV v) = 0 ∧ nonnegPre (dumpsV v)
  | .nullv, _ => all_nonBrace_bal _ (by decide)
  | .boolv true, _ => all_nonBrace_bal _ (by decide)
  | .boolv false, _ => all_nonBrace_bal _ (by decide)
  | .num n, _ => all_nonBrace_bal _ (intRepr_nonBrace n)
  | .str s, h => by
    simp only [nbV] at h
    exact all_nonBrace_bal _ (escString_nonBrace s h)
  | .arr .nil, _ => all_nonBrace_bal _ (by decide)
  | .arr (.cons x xs), h => by
    simp only [nbV, nbA, Bool.and_eq_true] at h
    have h1 := nbBal_V x h.1
    have h2 := nbBal_A xs h.2
    constructor
    · show braceSum ('[' :: (dumpsV x ++ dumpsArr xs ++ [']'])) = 0
      rw [braceSum_cons, braceSum_append, braceSum_append, h1.1, h2.1]
      decide
    · show nonnegPre ('[' :: (dumpsV x ++ dumpsArr xs ++ [']']))
      exact nonnegPre_cons0 _ _ (by decide)
        (nonnegPre_append _ _ (nonnegPre_append _ _ h1.2 h2.2)
          (all_nonBrace_bal _ (by decide)).2)
  | .obj .nil, _ => by
    constructor
    · decide
    · intro k
      show 0 ≤ braceSum (List.take k [lbrace, rbrace])
      rcases k with _ | _ | k
      · decide
      · decide
      · rw [List.take_of_length_le
          (by simp only [List.length_cons, List.length_nil]; omega)]
        decide
  | .obj (.cons k v r), h => by
    simp only [nbV, nbO, Bool.and_eq_true] at h
    have hesc := all_nonBrace_bal _ (escString_nonBrace k h.1.1)
    have h1 := nbBal_V v h.1.2
    have h2 := nbBal_O r h.2
    have hA_sum : braceSum ((escString k ++ (':' :: (' ' :: dumpsV v))) ++
        dumpsObj r) = 0 := by
      rw [braceSum_append, braceSum_append, braceSum_cons, braceSum_cons,
        hesc.1, h1.1, h2.1]
      decide
    have hA_pre : nonnegPre ((escString k ++ (':' :: (' ' :: dumpsV v))) ++
        dumpsObj r) :=
      nonnegPre_append _ _
        (nonnegPre_append _ _ hesc.2
          (nonnegPre_cons0 _ _ (by decide) (nonnegPre_cons0 _ _ (by decide) h1.2)))
        h2.2
    constructor
    · show braceSum (lbrace ::
        (((escString k ++ (':' :: (' ' :: dumpsV v))) ++ dumpsObj r) ++
          [rbrace])) = 0
      rw [braceSum_cons, braceSum_append, hA_sum]
      decide
    · show nonnegPre (lbrace ::
        (((escString k ++ (':' :: (' ' :: dumpsV v))) ++ dumpsObj r) ++
          [rbrace]))
      exact nonnegPre_obj _ hA_pre hA_sum

/-- Element-list version of `nbBal_V`. -/
theorem nbBal_A : ∀ (xs : JArr), nbA xs = true →
    braceSum (dumpsArr xs) = 0 ∧ nonnegPre (dumpsArr xs)
  | .nil, _ => all_nonBrace_bal _ (by decide)
  | .cons x xs, h => by
    simp only [nbA, Bool.and_eq_true] at h
    have h1 := nbBal_V x h.1
    have h2 := nbBal_A xs h.2
    constructor
    · show braceSum (',' :: (' ' :: (dumpsV x ++ dumpsArr xs))) = 0
      rw [braceSum_cons, braceSum_cons, braceSum_append, h1.1, h2.1]
      decide
    · show nonnegPre (',' :: (' ' :: (dumpsV x ++ dumpsArr xs)))
      exact nonnegPre_cons0 _ _ (by decide)
        (nonnegPre_cons0 _ _ (by decide) (nonnegPre_append _ _ h1.2 h2.2))

/-- Member-list version of `nbBal_V`. -/
theorem nbBal_O : ∀ (o : JObj), nbO o = true →
    braceSum (dumpsObj o) = 0 ∧ nonnegPre (dumpsObj o)
  | .nil, _ => all_nonBrace_bal _ (by decide)
  | .cons k v r, h => by
    simp only [nbO, Bool.and_eq_true] at h
    have hesc := all_nonBrace_bal _ (escString_nonBrace k h.1.1)
    have h1 := nbBal_V v h.1.2
    have h2 := nbBal_O r h.2
    constructor
    · show braceSum (',' :: (' ' ::
        ((escString k ++ (':' :: (' ' :: dumpsV v))) ++ dumpsObj r))) = 0
      rw [braceSum_cons, braceSum_cons, braceSum_append, braceSum_append,
        braceSum_cons, braceSum_cons, hesc.1, h1.1, h2.1]
      decide
    · show nonnegPre (',' :: (' ' ::
        ((escString k ++ (':' :: (' ' :: dumpsV v))) ++ dumpsObj r)))
      exact nonnegPre_cons0 _ _ (by decide) (nonnegPre_cons0 _ _ (by decide)
        (nonnegPre_append _ _
          (nonnegPre_append _ _ hesc.2
            (nonnegPre_cons0 _ _ (by decide)
              (nonnegPre_cons0 _ _ (by decide) h1.2)))
          h2.2))

end

/-- One walk step at an opening brace. -/
theorem braceWalkAux_lbrace (text cs : List Char) (i : Nat) (d : Int)
    (st : Option Nat) :
    braceWalkAux text (lbrace :: cs) i d st =
      braceWalkAux text cs (i + 1) (d + 1) (if d = 0 then some i else st) := by
  rw [braceWalkAux.eq_def]
  simp only []
  rw [if_pos trivial]

/-- One walk step at a closing brace that does not end the span. -/
theorem braceWalkAux_rbrace_deep (text cs : List Char) (i : Nat) (d : Int)
    (s0 : Nat) (hd : ¬(d - 1 = 0)) :
    braceWalkAux text (rbrace :: cs) i d (some s0) =
      braceWalkAux text cs (i + 1) (d - 1) (some s0) := by
  rw [braceWalkAux.eq_def]
  simp only []
  rw [if_pos trivial, if_neg hd, if_neg (show ¬(rbrace = lbrace) by decide)]

/-- One walk step at the closing brace that ends the span. -/
theorem braceWalkAux_rbrace_done (text cs : List Char) (i : Nat) (d : Int)
    (s0 : Nat) (hd : d - 1 = 0) :
    braceWalkAux text (rbrace :: cs) i d (some s0) =
      ((text.drop s0).take (i + 1 - s0)) ::
        braceWalkAux text cs (i + 1) (d - 1) none := by
  rw [braceWalkAux.eq_def]
  simp only []
  rw [if_pos trivial, if_pos hd, if_neg (show ¬(rbrace = lbrace) by decide)]

/-- One walk step at a non-brace character. -/
theorem braceWalkAux_other (text cs : List Char) (c : Char) (i : Nat)
    (d : Int) (st : Option Nat) (h1 : ¬(c = lbrace)) (h2 : ¬(c = rbrace)) :
    braceWalkAux text (c :: cs) i d st =
      braceWalkAux text cs (i + 1) d st := by
  rw [braceWalkAux.eq_def]
  simp only []
  rw [if_neg h1, if_neg h2]

/-- While the depth stays positive, the walk crosses an interior segment
without emitting and without touching the recorded start. -/
theorem braceWalkAux_interior (text after : List Char) (s0 : Nat) :
    ∀ (inner : List Char) (i : Nat) (d : Int),
      (∀ k, 1 ≤ d + braceSum (inner.take k)) →
      braceWalkAux text (inner ++ after) i d (some s0) =
        braceWalkAux text after (i + inner.length) (d + braceSum inner)
          (some s0) := by
  intro inner
  induction inner with
  | nil =>
    intro i d hinv
    simp [braceSum]
  | cons c cs ih =>
    intro i d hinv
    have hd1 : 1 ≤ d := by
      have h0 := hinv 0
      simpa [braceSum] using h0
    rw [List.cons_append]
    by_cases hc1 : c = lbrace
    · subst hc1
      rw [braceWalkAux_lbrace, if_neg (show ¬(d = 0) by omega)]
      have hinv2 : ∀ k, 1 ≤ d + 1 + braceSum (cs.take k) := by
        intro k
        have hk := hinv (k + 1)
        rw [List.take_succ_cons, braceSum_cons,
          (by decide : braceDelta lbrace = 1)] at hk
        omega
      rw [ih (i + 1) (d + 1) hinv2, List.length_cons, braceSum_cons,
        (by decide : braceDelta lbrace = 1)]
      have e1 : i + 1 + cs.length = i + (cs.length + 1) := by omega
      have e2 : d + 1 + braceSum cs = d + (1 + braceSum cs) := by omega
      rw [e1, e2]
    · by_cases hc2 : c = rbrace
      · subst hc2
        have hd2 : ¬(d - 1 = 0) := by
          have hk := hinv 1
          rw [List.take_succ_cons, braceSum_cons,
            (by decide : braceDelta rbrace = -1)] at hk
          simp only [List.take_zero, braceSum] at hk
          simp only [List.map_nil, List.sum_nil] at hk
          omega
        rw [braceWalkAux_rbrace_deep text _ i d s0 hd2]
        have hinv2 : ∀ k, 1 ≤ d - 1 + braceSum (cs.take k) := by
          intro k
          have hk := hinv (k + 1)
          rw [List.take_succ_cons, braceSum_cons,
            (by decide : braceDelta rbrace = -1)] at hk
          omega
        rw [ih (i + 1) (d - 1) hinv2, List.length_cons, braceSum_cons,
          (by decide : braceDelta rbrace = -1)]
        have e1 : i + 1 + cs.length = i + (cs.length + 1) := by omega
        have e2 : d - 1 + braceSum cs = d + (-1 + braceSum cs) := by omega
        rw [e1, e2]
      · have hdel : braceDelta c = 0 := by
          simp [braceDelta, hc1, hc2]
        rw [braceWalkAux_other text _ c i d (some s0) hc1 hc2]
        have hinv2 : ∀ k, 1 ≤ d + braceSum (cs.take k) := by
          intro k
          have hk := hinv (k + 1)
          rw [List.take_succ_cons, braceSum_cons, hdel] at hk
          omega
        rw [ih (i + 1) d hinv2, List.length_cons, braceSum_cons, hdel]
        have e1 : i + 1 + cs.length = i + (cs.length + 1) := by omega
        have e2 : d + braceSum cs = d + (0 + braceSum cs) := by omega
        rw [e1, ← e2]

/-- Interior of a serialized brace-free object member list: balanced with
nonnegative prefixes. -/
theorem obj_inner_bal (k : String) (v : JVal) (r : JObj)
    (hk : k.data.all nonBrace = true) (hv : nbV v = true)
    (hr : nbO r = true) :
    braceSum ((escString k ++ (':' :: (' ' :: dumpsV v))) ++ dumpsObj r) = 0 ∧
      nonnegPre ((escString k ++ (':' :: (' ' :: dumpsV v))) ++ dumpsObj r) := by
  have hesc := all_nonBrace_bal _ (escString_nonBrace k hk)
  have h1 := nbBal_V v hv
  have h2 := nbBal_O r hr
  constructor
  · rw [braceSum_append, braceSum_append, braceSum_cons, braceSum_cons,
      hesc.1, h1.1, h2.1]
    decide
  · exact nonnegPre_append _ _
      (nonnegPre_append _ _ hesc.2
        (nonnegPre_cons0 _ _ (by decide)
          (nonnegPre_cons0 _ _ (by decide) h1.2)))
      h2.2

/-- The brace-depth walk over a serialized brace-free object emits exactly
the whole serialization as its single span. -/
theorem braceWalk_dumpsObj (k : String) (v : JVal) (r : JObj)
    (hnb : nbV (.obj (.cons k v r)) = true) :
    braceWalkAux (dumpsV (.obj (.cons k v r))) (dumpsV (.obj (.cons k v r)))
      0 0 none = [dumpsV (.obj (.cons k v r))] := by
  simp only [nbV, nbO, Bool.and_eq_true] at hnb
  obtain ⟨⟨hk, hv⟩, hr⟩ := hnb
  obtain ⟨hsA, hpA⟩ := obj_inner_bal k v r hk hv hr
  have hT : dumpsV (.obj (.cons k v r)) =
      lbrace :: (((escString k ++ (':' :: (' ' :: dumpsV v))) ++ dumpsObj r) ++
        [rbrace]) := rfl
  rw [hT, braceWalkAux_lbrace, if_pos rfl]
  have hinv : ∀ kk, 1 ≤ (0 : Int) + 1 + braceSum
      ((((escString k ++ (':' :: (' ' :: dumpsV v))) ++ dumpsObj r)).take kk) := by
    intro kk
    have h2 := hpA kk
    omega
  rw [braceWalkAux_interior _ [rbrace] 0 _ (0 + 1) (0 + 1) hinv, hsA,
    braceWalkAux_rbrace_done _ _ _ _ _ (by decide), List.drop_zero]
  rw [List.take_of_length_le (by
    generalize ((escString k ++ (':' :: (' ' :: dumpsV v))) ++ dumpsObj r) = A0
    simp only [List.length_cons, List.length_append, List.length_singleton,
      List.length_nil]
    omega)]
  rfl

/-- On the canonical serialization of a candidate with brace-free strings,
the brace-balanced scan rediscovers exactly that candidate. -/
theorem braceScan_self (c : Cand) (hnb1 : nbV c.name = true)
    (hnb2 : nbV c.arguments = true) (hw1 : wfV c.name = true)
    (hw2 : wfV c.arguments = true) :
    braceBalancedScan (candDump c) = [c] := by
  have hnbObj : nbV (.obj (.cons ("name") c.name
      (.cons ("arguments") c.arguments .nil))) = true := by
    simp only [nbV, nbO, Bool.and_eq_true]
    exact ⟨⟨by decide, hnb1⟩, ⟨by decide, hnb2⟩, trivial⟩
  have hnd : (objKeys (JObj.cons ("name") c.name
      (JObj.cons ("arguments") c.arguments JObj.nil))).Nodup := by
    show List.Nodup [("name" : String), ("arguments" : String)]
    decide
  have hwObj : wfV (.obj (.cons ("name") c.name
      (.cons ("arguments") c.arguments .nil))) = true := by
    simp only [wfV, wfO, Bool.and_eq_true, decide_eq_true_eq]
    exact ⟨hnd, hw1, hw2, trivial⟩
  have hdata : (candDump c).data = dumpsV (.obj (.cons ("name") c.name
      (.cons ("arguments") c.arguments .nil))) := rfl
  have hspan : candOfSpan (dumpsV (.obj (.cons ("name") c.name
      (.cons ("arguments") c.arguments .nil)))) = some c := by
    have hl : loads ⟨dumpsV (.obj (.cons ("name") c.name
        (.cons ("arguments") c.arguments .nil)))⟩ =
        some (.obj (.cons ("name") c.name
          (.cons ("arguments") c.arguments .nil))) :=
      loads_dumps _ hwObj
    unfold candOfSpan
    rw [hl]
    rfl
  unfold braceBalancedScan
  rw [hdata, braceWalk_dumpsObj ("name") c.name
    (.cons ("arguments") c.arguments .nil) hnbObj]
  simp [List.filterMap_cons, hspan]

set_option maxRecDepth 100000 in
/-- C8, counterexample.  A discovered call whose arguments hold the string
`\x7d` (a single closing brace) breaks round-trip stability: the matcher
finds `cexCand` in `discoveryText` (where the brace is spelled with a
unicode escape), yet on the canonical re-serialization — where the brace
appears raw inside the string literal — every strategy of the matcher
finds nothing at all. -/
theorem roundtrip_cex :
    cexCand ∈ detect_tool_calls_in_text discoveryText ∧
    detect_tool_calls_in_text (candDump cexCand) = [] := by
  constructor
  · have h : detect_tool_calls_in_text discoveryText = [cexCand] := by decide
    rw [h]
    simp
  · decide

/-- C8, amended.  Round-trip stability holds for calls whose strings are
brace-free: if a discovered candidate has no brace character inside any of
its strings (keys or values), its objects have distinct keys, and the
strict scan finds nothing on its canonical serialization, then running the
matcher on that serialization rediscovers the candidate itself (equal name
and equal arguments) through the brace-balanced fallback. -/
theorem roundtrip_amended (c : Cand) (hnb1 : nbV c.name = true)
    (hnb2 : nbV c.arguments = true) (hw1 : wfV c.name = true)
    (hw2 : wfV c.arguments = true)
    (hstrict : jsonObjectScan (candDump c) = []) :
    c ∈ detect_tool_calls_in_text (candDump c) := by
  simp only [detect_tool_calls_in_text, hstrict, List.isEmpty_nil, if_true,
    List.nil_append]
  rw [braceScan_self c hnb1 hnb2 hw1 hw2]
  simp

set_option maxRecDepth 100000 in
/-- Witness for the amended round-trip theorem: a candidate with nested
object arguments (out of the strict scan's reach) is rediscovered from its
serialization by the brace-balanced fallback. -/
theorem roundtrip_amended_witness :
    (nbV nestedCand.name = true ∧ nbV nestedCand.arguments = true ∧
      wfV nestedCand.name = true ∧ wfV nestedCand.arguments = true ∧
      jsonObjectScan (candDump nestedCand) = []) ∧
    nestedCand ∈ detect_tool_calls_in_text (candDump nestedCand) :=
  ⟨⟨by decide, by decide, by decide, by decide, by decide⟩,
   roundtrip_amended nestedCand (by decide) (by decide) (by decide)
     (by decide) (by decide)⟩

end RalphOllama

